import Mathlib

/-!
Shallow embedding of the blockchain-secure-logging off-chain core
(offchain/merkle.py, offchain/batcher.py, offchain/schemas.py,
offchain/storage/local_store.py and the proof serialization of
offchain/api.py), together with theorems settling the spec claims.

Modelling conventions:
* Python byte strings are lists of naturals (each byte < 256 where it
  matters); SHA-256 is an uninterpreted parameter H of every definition
  that hashes, since no claim depends on properties of the digest
  function beyond determinism.  The source applies hashlib.sha256 to a
  byte concatenation; the embedding applies H to the same concatenation.
* Python str values are Lean Strings; str.encode("utf-8") is modelled by
  the list of code points, which preserves and reflects equality of the
  encoded strings (UTF-8 is injective on code-point sequences).
* Python dicts carrying JSON data are association lists in insertion
  order, with the nodup-key invariant that real dicts maintain.
* Python exceptions are an explicit error type carried by Except; the
  constructor names the Python exception class, the payload its message.
-/

namespace SecureLogging

/-- JSON values appearing in a log entry (the subset exercised by the
pipeline: strings and integers). -/
inductive JVal where
  | str (s : String)
  | int (n : Int)
deriving DecidableEq, Repr

/-- A UTC wall-clock instant at second precision, mirroring the Python
datetime values the pipeline carries (always timezone-normalized to UTC
by schemas._ensure_datetime). Python's datetime constructor enforces
1 <= month <= 12, 1 <= day <= 31, hour < 24, minute < 60, second < 60. -/
structure Datetime where
  year : Nat
  month : Nat
  day : Nat
  hour : Nat
  minute : Nat
  second : Nat
deriving DecidableEq, Repr

/-- Chronological order on datetimes, via an order-preserving numeric
encoding (order-preserving on the field ranges Python's datetime
enforces).  Used to model comparison of Python datetime objects. -/
def Datetime.key (t : Datetime) : Nat :=
  ((((t.year * 13 + t.month) * 32 + t.day) * 24 + t.hour) * 60 + t.minute) * 60 + t.second

/-- schemas.LogEntry: the normalized log entry expected by the batcher.
fields is the open mapping of additional named attributes (a Python
dict: keyed association list, insertion-ordered, no duplicate keys). -/
structure LogEntry where
  ts : Datetime
  source_id : String
  level : String
  msg : String
  fields : List (String × JVal)
deriving DecidableEq, Repr

/-- Two lowercase hex digits of a byte, as Python bytes.hex renders it. -/
def hexChar (n : Nat) : Char :=
  if n < 10 then Char.ofNat (48 + n) else Char.ofNat (87 + n)

/-- One byte rendered as two lowercase hex characters. -/
def byteHex (b : Nat) : List Char :=
  [hexChar (b / 16), hexChar (b % 16)]

/-- bytes.hex(): lowercase hex rendering of a byte string. -/
def bytesHex (l : List Nat) : String :=
  String.mk (l.foldr (fun b acc => byteHex b ++ acc) [])

/-- Zero-padded two-digit decimal field of strftime. -/
def pad2 (n : Nat) : List Char :=
  if n < 10 then '0' :: (toString n).data else (toString n).data

/-- Zero-padded four-digit year field of strftime. -/
def pad4 (n : Nat) : List Char :=
  (if n < 10 then ['0', '0', '0'] else if n < 100 then ['0', '0']
   else if n < 1000 then ['0'] else []) ++ (toString n).data

/-- strftime(ISOFORMAT) with ISOFORMAT = "%Y-%m-%dT%H:%M:%SZ"
(schemas.ISOFORMAT). -/
def strftime_iso (t : Datetime) : String :=
  String.mk (pad4 t.year ++ '-' :: pad2 t.month ++ '-' :: pad2 t.day ++
    'T' :: pad2 t.hour ++ ':' :: pad2 t.minute ++ ':' :: pad2 t.second ++ ['Z'])

/-- Escaping of one character inside a JSON string, as json.dumps with
ensure_ascii=False performs it: quote, backslash and control characters
are escaped, everything else passes through. -/
def json_escape_char (c : Char) : List Char :=
  if c = '"' then ['\\', '"']
  else if c = '\\' then ['\\', '\\']
  else if c = Char.ofNat 8 then ['\\', 'b']
  else if c = Char.ofNat 9 then ['\\', 't']
  else if c = Char.ofNat 10 then ['\\', 'n']
  else if c = Char.ofNat 12 then ['\\', 'f']
  else if c = Char.ofNat 13 then ['\\', 'r']
  else if c.toNat < 32 then ['\\', 'u', '0', '0', hexChar (c.toNat / 16), hexChar (c.toNat % 16)]
  else [c]

/-- Rendering of one JSON value by json.dumps. -/
def jval_render : JVal → List Char
  | .str s => '"' :: (s.data.foldr (fun c acc => json_escape_char c ++ acc) ['"'])
  | .int n => (toString n).data

/-- Lexicographic code-point order on character lists: Python's str
comparison. -/
def chars_lt : List Char → List Char → Bool
  | [], [] => false
  | [], _ :: _ => true
  | _ :: _, [] => false
  | a :: as, b :: bs =>
    if a.toNat < b.toNat then true
    else if b.toNat < a.toNat then false
    else chars_lt as bs

/-- Python str-less-than on the underlying code points. -/
def str_lt (a b : String) : Bool :=
  chars_lt a.data b.data

/-- Stable insertion of a key-value pair into a key-sorted list: the new
pair goes after every pair whose key is not greater.  Models the
ascending key order produced by json.dumps(sort_keys=True). -/
def insert_by_key (p : String × JVal) : List (String × JVal) → List (String × JVal)
  | [] => [p]
  | q :: l => if str_lt p.1 q.1 then p :: q :: l else q :: insert_by_key p l

/-- Sorting of dict items by key, as json.dumps(sort_keys=True) outputs
them (Python sorts str keys lexicographically by code point). -/
def sort_fields (l : List (String × JVal)) : List (String × JVal) :=
  l.foldl (fun acc p => insert_by_key p acc) []

/-- Separator-interleaved concatenation (the separators=(",", ":")
rendering of json.dumps). -/
def intercalate_chars (sep : List Char) : List (List Char) → List Char
  | [] => []
  | [x] => x
  | x :: y :: rest => x ++ sep ++ intercalate_chars sep (y :: rest)

/-- json.dumps(payload, sort_keys=True, separators=(",", ":"),
ensure_ascii=False) for a payload dict of JSON values. -/
def json_dumps_sorted (payload : List (String × JVal)) : String :=
  String.mk (Char.ofNat 123 ::
    intercalate_chars [','] ((sort_fields payload).map
      (fun p => jval_render (.str p.1) ++ ':' :: jval_render p.2)) ++ [Char.ofNat 125])

/-- Python dict item assignment d[k] = v: replaces the value in place if
the key is present, appends the pair otherwise. -/
def dict_insert : List (String × JVal) → String → JVal → List (String × JVal)
  | [], k, v => [(k, v)]
  | q :: l, k, v => if q.1 = k then (q.1, v) :: l else q :: dict_insert l k v

/-- Python dict.update(u): item assignment of every pair of u in order. -/
def dict_update (d u : List (String × JVal)) : List (String × JVal) :=
  u.foldl (fun acc p => dict_insert acc p.1 p.2) d

/-- The base payload dict of merkle.canonical_leaf before the
fields-update: ts, source_id, level, msg in insertion order. -/
def base_payload (e : LogEntry) : List (String × JVal) :=
  [(("ts" : String), JVal.str (strftime_iso e.ts)),
   (("source_id" : String), JVal.str e.source_id),
   (("level" : String), JVal.str e.level),
   (("msg" : String), JVal.str e.msg)]

/-- merkle.canonical_leaf: serialize a LogEntry into canonical JSON
text (the bytes hashed are the UTF-8 encoding of this string). -/
def canonical_leaf (e : LogEntry) : String :=
  let payload := base_payload e
  let payload := if e.fields.isEmpty then payload else dict_update payload e.fields
  json_dumps_sorted payload

/-- str.encode("utf-8"), modelled by the code-point sequence (which
preserves and reflects string equality). -/
def str_bytes (s : String) : List Nat :=
  s.data.map Char.toNat

/-- merkle.leaf_hash: SHA-256 (the parameter H) of the canonical
encoding. -/
def leaf_hash (H : List Nat → List Nat) (e : LogEntry) : List Nat :=
  H (str_bytes (canonical_leaf e))

/-- Python exceptions raised by the embedded code, by class and
message. -/
inductive PyError where
  | valueError (msg : String)
  | indexError (msg : String)
  | typeError (msg : String)
  | fileExistsError (msg : String)
deriving DecidableEq, Repr

/-- One level-combining pass of merkle_root and merkle_proof: the loop
for left, right in _pairwise(level): next.append(sha256(left + right)),
where _pairwise pairs adjacent entries and pairs a trailing odd entry
with itself. -/
def hash_level (H : List Nat → List Nat) : List (List Nat) → List (List Nat)
  | [] => []
  | [x] => [H (x ++ x)]
  | x :: y :: rest => H (x ++ y) :: hash_level H rest

theorem hash_level_length (H : List Nat → List Nat) :
    ∀ l : List (List Nat), (hash_level H l).length = (l.length + 1) / 2
  | [] => by simp [hash_level]
  | [_] => by simp [hash_level]
  | _ :: _ :: rest => by
      simp only [hash_level, List.length_cons, hash_level_length H rest]
      omega

/-- The while-loop of merkle.merkle_root: combine levels until at most
one hash remains. -/
def root_loop (H : List Nat → List Nat) (level : List (List Nat)) : List (List Nat) :=
  if level.length ≤ 1 then level else root_loop H (hash_level H level)
  termination_by level.length
  decreasing_by simp only [hash_level_length]; omega

/-- merkle.merkle_root: Merkle root of a list of leaf hashes; raises
ValueError on an empty input. -/
def merkle_root (H : List Nat → List Nat) (leaves : List (List Nat)) :
    Except PyError (List Nat) :=
  if leaves.isEmpty then
    .error (.valueError ("Cannot compute Merkle root with no leaves"))
  else
    .ok ((root_loop H leaves).headD [])

/-- The odd-level padding step of merkle.merkle_proof:
if len(level) % 2 == 1: level.append(level[-1]). -/
def pad_level (level : List (List Nat)) : List (List Nat) :=
  if level.length % 2 = 1 then level ++ [level.getLastD []] else level

theorem pad_level_length (level : List (List Nat)) :
    (pad_level level).length = if level.length % 2 = 1 then level.length + 1 else level.length := by
  unfold pad_level
  split <;> simp

/-- The while-loop of merkle.merkle_proof: at each level, pad to even
length, record the sibling at idx xor 1 with its side, then move to the
parent level at idx / 2. -/
def proof_loop (H : List Nat → List Nat) (idx : Nat) (level : List (List Nat)) :
    List (String × List Nat) :=
  if level.length ≤ 1 then [] else
    ((if idx ^^^ 1 < idx then ("left" : String) else ("right" : String)),
        (pad_level level).getD (idx ^^^ 1) []) ::
      proof_loop H (idx / 2) (hash_level H (pad_level level))
  termination_by level.length
  decreasing_by
    simp only [hash_level_length, pad_level_length]
    split <;> omega

/-- merkle.merkle_proof: inclusion proof for the leaf at target_index;
raises IndexError unless 0 <= target_index < len(leaves).  The index is
an Int because Python ints are signed. -/
def merkle_proof (H : List Nat → List Nat) (target_index : Int)
    (leaves : List (List Nat)) : Except PyError (List (String × List Nat)) :=
  if ¬ (0 ≤ target_index ∧ target_index < leaves.length) then
    .error (.indexError ("target_index out of bounds"))
  else
    .ok (proof_loop H target_index.toNat leaves)

/-- The folding loop of merkle.verify_proof: combine the running hash
with each sibling on the recorded side, raising ValueError on a
direction other than "left" or "right". -/
def verify_fold (H : List Nat → List Nat) (computed : List Nat) :
    List (String × List Nat) → Except PyError (List Nat)
  | [] => .ok computed
  | (direction, sibling) :: rest =>
    if direction = ("right" : String) then verify_fold H (H (computed ++ sibling)) rest
    else if direction = ("left" : String) then verify_fold H (H (sibling ++ computed)) rest
    else .error (.valueError ("Unknown direction " ++ direction))

/-- merkle.verify_proof: fold the leaf through the proof and compare
with the expected root byte-for-byte. -/
def verify_proof (H : List Nat → List Nat) (leaf : List Nat)
    (proof : List (String × List Nat)) (expected_root : List Nat) :
    Except PyError Bool :=
  match verify_fold H leaf proof with
  | .error e => .error e
  | .ok computed => .ok (computed == expected_root)

/-- Total variant of the verify_proof fold, treating every non-"right"
direction as "left"; it agrees with verify_fold whenever all directions
are valid and is used only to state what verify_proof returns then. -/
def fold_proof (H : List Nat → List Nat) (computed : List Nat) :
    List (String × List Nat) → List Nat
  | [] => computed
  | (direction, sibling) :: rest =>
    fold_proof H
      (if direction = ("right" : String) then H (computed ++ sibling) else H (sibling ++ computed))
      rest

/-- Python str.lower() (ASCII case folding suffices for the hex and
0x-prefix data this validator sees). -/
def lower_str (s : String) : String :=
  String.mk (s.data.map Char.toLower)

/-- str.startswith("0x"). -/
def startswith_0x (s : String) : Bool :=
  match s.data with
  | c1 :: c2 :: _ => c1 == '0' && c2 == 'x'
  | _ => false

/-- The character set "0123456789abcdef" tested by _validate_hex32. -/
def hex_digits : List Char :=
  "0123456789abcdef".data

def is_hex_digit (c : Char) : Bool :=
  hex_digits.contains c

/-- schemas._validate_hex32: lowercase, prepend "0x" when missing, then
require exactly 66 characters of which the last 64 are hex digits.
Returns the normalized string; a non-string input (TypeError in Python)
cannot arise here because the model is typed. -/
def validate_hex32 : Option String → Except PyError (Option String)
  | none => .ok none
  | some value =>
    let lowered := lower_str value
    let normalized := if startswith_0x lowered then lowered else "0x" ++ lowered
    if normalized.data.length ≠ 66 then
      .error (.valueError ("Expected 32-byte hex string, got " ++ value))
    else if (normalized.data.drop 2).any (fun c => ! is_hex_digit c) then
      .error (.valueError ("Expected hexadecimal characters, got " ++ value))
    else .ok (some normalized)

/-- schemas.BatchMeta, after __post_init__ has run (window timestamps
normalized, root fields validated). -/
structure BatchMeta where
  batch_id : String
  count : Nat
  window_start : Datetime
  window_end : Datetime
  hash_alg : String
  leaf_order : String
  signer_alg : String
  signer_pub : Option String
  prev_merkle_root : Option String
  root : Option String
  sig : Option String
deriving DecidableEq, Repr

/-- BatchMeta construction including the __post_init__ validation hook:
_ensure_datetime on the window bounds (identity here, the model's
datetimes are already UTC) and _validate_hex32 on prev_merkle_root and
then root, either of which may raise. -/
def mk_batch_meta (batch_id : String) (count : Nat) (window_start window_end : Datetime)
    (prev_merkle_root root : Option String) : Except PyError BatchMeta :=
  match validate_hex32 prev_merkle_root with
  | .error e => .error e
  | .ok prev_n =>
    match validate_hex32 root with
    | .error e => .error e
    | .ok root_n =>
      .ok { batch_id := batch_id, count := count,
            window_start := window_start, window_end := window_end,
            hash_alg := ("SHA-256" : String), leaf_order := ("ts_asc_seq" : String),
            signer_alg := ("ECDSA_secp256k1" : String), signer_pub := none,
            prev_merkle_root := prev_n, root := root_n, sig := none }

/-- The manifest dict built by batcher.build_manifest: the serialized
batch metadata and the hex-rendered leaves (the constant-empty proofs
dict is omitted). -/
structure Manifest where
  batch : BatchMeta
  leaves : List String
deriving DecidableEq, Repr

/-- Stands for datetime.now(timezone.utc) in build_manifest's
entries-empty fallback; no .ok result ever contains it because
merkle_root raises first on an empty batch. -/
def default_now : Datetime :=
  ⟨2024, 1, 1, 0, 0, 0⟩

/-- batcher.build_manifest: hash the given entries in the given order,
compute the root, and assemble the manifest.  prev_root is passed into
BatchMeta and hence through _validate_hex32. -/
def build_manifest (H : List Nat → List Nat) (batch_id : String)
    (entries : List LogEntry) (prev_root : Option String) : Except PyError Manifest :=
  let leaves := entries.map (leaf_hash H)
  match merkle_root H leaves with
  | .error e => .error e
  | .ok root =>
    match mk_batch_meta batch_id entries.length
        (((entries.head?).map LogEntry.ts).getD default_now)
        (((entries.getLast?).map LogEntry.ts).getD default_now)
        prev_root (some ("0x" ++ bytesHex root)) with
    | .error e => .error e
    | .ok batch => .ok { batch := batch, leaves := leaves.map bytesHex }

/-- Stable insertion of an entry into a ts-sorted list: the new entry
goes after every entry whose timestamp is not greater. -/
def insert_by_ts (e : LogEntry) : List LogEntry → List LogEntry
  | [] => [e]
  | b :: l => if e.ts.key < b.ts.key then e :: b :: l else b :: insert_by_ts e l

/-- The entries.sort(key=lambda e: e.ts) step of batcher.gather_entries:
Python's stable ascending sort, modelled as a stable insertion sort. -/
def sort_by_ts (entries : List LogEntry) : List LogEntry :=
  entries.foldl (fun acc e => insert_by_ts e acc) []

/-- The proof wire form of api.verify: each (direction, sibling) pair
rendered with hash "0x" + sibling.hex(). -/
def serialize_proof (proof : List (String × List Nat)) : List (String × String) :=
  proof.map (fun p => (p.1, "0x" ++ bytesHex p.2))

/-- A file system visible to the storage code: path to file content. -/
def FileStore := List (String × String)

def store_get (fs : List (String × String)) (path : String) : Option String :=
  fs.lookup path

/-- Writing path with mode "w": truncate and replace if present, create
otherwise. -/
def store_set : List (String × String) → String → String → List (String × String)
  | [], p, c => [(p, c)]
  | q :: l, p, c => if q.1 = p then (q.1, c) :: l else q :: store_set l p c

/-- batcher.persist_manifest: open(out_dir / f"batch_id.manifest.json",
"w") and dump the manifest — an unconditional overwrite, with no
existence check.  Returns the new store and the path written. -/
def persist_manifest (fs : List (String × String)) (manifest : String)
    (batch_id : String) (out_dir : String) : List (String × String) × String :=
  let path := out_dir ++ "/" ++ batch_id ++ ".manifest.json"
  (store_set fs path manifest, path)

/-- local_store.AppendOnlyStore.append_json: the target path carries a
second-precision timestamp suffix; only if that exact path already
exists does it raise FileExistsError. -/
def append_json (fs : List (String × String)) (root_dir name payload timestamp : String) :
    Except PyError (List (String × String) × String) :=
  let path := root_dir ++ "/" ++ name ++ "." ++ timestamp ++ ".json"
  if (store_get fs path).isSome then
    .error (.fileExistsError ("Refusing to overwrite existing " ++ path))
  else
    .ok (store_set fs path payload, path)

/-! ## Helper lemmas about the verify fold -/

theorem verify_fold_cons_right (H : List Nat → List Nat) (c s : List Nat)
    (rest : List (String × List Nat)) :
    verify_fold H c ((("right" : String), s) :: rest) = verify_fold H (H (c ++ s)) rest := by
  simp [verify_fold]

theorem verify_fold_cons_left (H : List Nat → List Nat) (c s : List Nat)
    (rest : List (String × List Nat)) :
    verify_fold H c ((("left" : String), s) :: rest) = verify_fold H (H (s ++ c)) rest := by
  simp [verify_fold]

theorem verify_fold_cons_bad (H : List Nat → List Nat) (c s : List Nat) {d : String}
    (rest : List (String × List Nat)) (h1 : d ≠ ("right" : String)) (h2 : d ≠ ("left" : String)) :
    verify_fold H c ((d, s) :: rest) = .error (.valueError ("Unknown direction " ++ d)) := by
  simp [verify_fold, h1, h2]

theorem fold_proof_cons_right (H : List Nat → List Nat) (c s : List Nat)
    (rest : List (String × List Nat)) :
    fold_proof H c ((("right" : String), s) :: rest) = fold_proof H (H (c ++ s)) rest := by
  simp [fold_proof]

theorem fold_proof_cons_left (H : List Nat → List Nat) (c s : List Nat)
    (rest : List (String × List Nat)) :
    fold_proof H c ((("left" : String), s) :: rest) = fold_proof H (H (s ++ c)) rest := by
  simp [fold_proof]

theorem verify_fold_error_iff (H : List Nat → List Nat) :
    ∀ (pf : List (String × List Nat)) (c : List Nat),
      (∃ e, verify_fold H c pf = .error e) ↔
        ∃ p ∈ pf, p.1 ≠ ("left" : String) ∧ p.1 ≠ ("right" : String)
  | [], c => by simp [verify_fold]
  | (d, s) :: rest, c => by
      by_cases hr : d = ("right" : String)
      · subst hr
        rw [verify_fold_cons_right, verify_fold_error_iff H rest]
        simp
      · by_cases hl : d = ("left" : String)
        · subst hl
          rw [verify_fold_cons_left, verify_fold_error_iff H rest]
          simp
        · rw [verify_fold_cons_bad H c s rest hr hl]
          refine ⟨fun _ => ⟨(d, s), List.mem_cons_self _ _, hl, hr⟩, fun _ => ?_⟩
          exact ⟨.valueError ("Unknown direction " ++ d), rfl⟩

theorem verify_fold_error_msg (H : List Nat → List Nat) :
    ∀ (pf : List (String × List Nat)) (c : List Nat) (e : PyError),
      verify_fold H c pf = .error e →
        ∃ p ∈ pf, p.1 ≠ ("left" : String) ∧ p.1 ≠ ("right" : String) ∧
          e = .valueError ("Unknown direction " ++ p.1)
  | [], c, e => by simp [verify_fold]
  | (d, s) :: rest, c, e => by
      by_cases hr : d = ("right" : String)
      · subst hr
        rw [verify_fold_cons_right]
        intro h
        obtain ⟨p, hp, hbad⟩ := verify_fold_error_msg H rest _ e h
        exact ⟨p, List.mem_cons_of_mem _ hp, hbad⟩
      · by_cases hl : d = ("left" : String)
        · subst hl
          rw [verify_fold_cons_left]
          intro h
          obtain ⟨p, hp, hbad⟩ := verify_fold_error_msg H rest _ e h
          exact ⟨p, List.mem_cons_of_mem _ hp, hbad⟩
        · rw [verify_fold_cons_bad H c s rest hr hl]
          intro h
          refine ⟨(d, s), List.mem_cons_self _ _, hl, hr, ?_⟩
          cases h
          rfl

theorem verify_fold_ok (H : List Nat → List Nat) :
    ∀ (pf : List (String × List Nat)) (c : List Nat),
      (∀ p ∈ pf, p.1 = ("left" : String) ∨ p.1 = ("right" : String)) →
        verify_fold H c pf = .ok (fold_proof H c pf)
  | [], c, _ => rfl
  | (d, s) :: rest, c, hgood => by
      have hd := hgood (d, s) (List.mem_cons_self _ _)
      have hrest : ∀ p ∈ rest, p.1 = ("left" : String) ∨ p.1 = ("right" : String) :=
        fun p hp => hgood p (List.mem_cons_of_mem _ hp)
      rcases hd with hl | hr
      · simp only at hl
        subst hl
        rw [verify_fold_cons_left, fold_proof_cons_left]
        exact verify_fold_ok H rest _ hrest
      · simp only at hr
        subst hr
        rw [verify_fold_cons_right, fold_proof_cons_right]
        exact verify_fold_ok H rest _ hrest

/-! ## Helper lemmas about levels -/

theorem getD_append_left {l t : List (List Nat)} {i : Nat} (h : i < l.length) :
    (l ++ t).getD i [] = l.getD i [] := by
  rw [List.getD_eq_getElem?_getD, List.getD_eq_getElem?_getD, List.getElem?_append_left h]

theorem getLastD_irrel {l : List (List Nat)} (h : l ≠ []) (d₁ d₂ : List Nat) :
    l.getLastD d₁ = l.getLastD d₂ := by
  rw [List.getLastD_eq_getLast?, List.getLastD_eq_getLast?]
  obtain ⟨x, hx⟩ := Option.isSome_iff_exists.mp (List.getLast?_isSome.mpr h)
  rw [hx]
  rfl

theorem hash_level_getD (H : List Nat → List Nat) :
    ∀ (j : Nat) (l : List (List Nat)), 2 * j + 1 < l.length →
      (hash_level H l).getD j [] = H (l.getD (2 * j) [] ++ l.getD (2 * j + 1) [])
  | j, [] => by intro h; simp at h
  | j, [x] => by intro h; simp at h
  | 0, x :: y :: rest => by intro _; simp [hash_level]
  | j + 1, x :: y :: rest => by
      intro h
      have h' : 2 * j + 1 < rest.length := by simp at h; omega
      have heq : 2 * (j + 1) = 2 * j + 1 + 1 := by omega
      simp only [hash_level, heq, List.getD_cons_succ]
      exact hash_level_getD H j rest h'

theorem hash_level_append_last (H : List Nat → List Nat) :
    ∀ (l : List (List Nat)), l.length % 2 = 1 →
      hash_level H (l ++ [l.getLastD []]) = hash_level H l
  | [], h => by simp at h
  | [x], _ => by simp [hash_level]
  | x :: y :: rest, h => by
      have hodd : rest.length % 2 = 1 := by simp at h; omega
      have hne : rest ≠ [] := by intro hc; rw [hc] at hodd; simp at hodd
      have hlast : (x :: y :: rest).getLastD [] = rest.getLastD [] := by
        rw [List.getLastD_cons, List.getLastD_cons]
        exact getLastD_irrel hne y []
      rw [hlast]
      show hash_level H (x :: y :: (rest ++ [rest.getLastD []])) = hash_level H (x :: y :: rest)
      simp only [hash_level]
      rw [hash_level_append_last H rest hodd]

theorem hash_level_pad (H : List Nat → List Nat) (level : List (List Nat)) :
    hash_level H (pad_level level) = hash_level H level := by
  unfold pad_level
  split
  · exact hash_level_append_last H level (by assumption)
  · rfl

theorem pad_level_getD {level : List (List Nat)} {i : Nat} (h : i < level.length) :
    (pad_level level).getD i [] = level.getD i [] := by
  unfold pad_level
  split
  · exact getD_append_left h
  · rfl

theorem pad_level_even (level : List (List Nat)) : (pad_level level).length % 2 = 0 := by
  rw [pad_level_length]
  split <;> omega

theorem xor_one_even {k : Nat} : (2 * k) ^^^ 1 = 2 * k + 1 := by
  have h := Nat.xor_bit false k true 0
  simp [Nat.bit] at h
  simpa using h

theorem xor_one_odd {k : Nat} : (2 * k + 1) ^^^ 1 = 2 * k := by
  have h := Nat.xor_bit true k true 0
  simp [Nat.bit] at h
  simpa using h

/-- The inclusion-proof fold recomputes the root: folding the leaf at
idx through the proof generated by the level loop lands on the value the
root loop computes.  n is recursion fuel bounding the level size. -/
theorem fold_loop_root (H : List Nat → List Nat) :
    ∀ (n : Nat) (level : List (List Nat)) (idx : Nat), level.length ≤ n →
      idx < level.length →
      verify_fold H (level.getD idx []) (proof_loop H idx level) =
        .ok ((root_loop H level).headD []) := by
  intro n
  induction n with
  | zero => intro level idx hn hidx; omega
  | succ n ih =>
    intro level idx hn hidx
    by_cases hlen : level.length ≤ 1
    · have hidx0 : idx = 0 := by omega
      subst hidx0
      rw [proof_loop, if_pos hlen, root_loop, if_pos hlen]
      cases level with
      | nil => simp at hidx
      | cons a l => simp [verify_fold]
    · push_neg at hlen
      have hlvl_len : (pad_level level).length = level.length ∨
          (pad_level level).length = level.length + 1 := by
        rw [pad_level_length]; split
        · right; rfl
        · left; rfl
      have hlvl_even : (pad_level level).length % 2 = 0 := pad_level_even level
      have hnext_len : (hash_level H (pad_level level)).length = ((pad_level level).length + 1) / 2 :=
        hash_level_length H _
      have hcur : level.getD idx [] = (pad_level level).getD idx [] := (pad_level_getD hidx).symm
      rw [proof_loop, if_neg (by omega)]
      rcases Nat.even_or_odd idx with he | ho
      · obtain ⟨k, hk⟩ := he
        have hk2 : idx = 2 * k := by omega
        subst hk2
        have hsib : (2 * k) ^^^ 1 = 2 * k + 1 := xor_one_even
        have hsib_lt : 2 * k + 1 < (pad_level level).length := by omega
        have hdiv : (2 * k) / 2 = k := by omega
        have hroot : root_loop H level = root_loop H (hash_level H (pad_level level)) := by
          conv_lhs => rw [root_loop]
          rw [if_neg (by omega), hash_level_pad]
        rw [hsib, if_neg (by omega), hdiv, verify_fold_cons_right]
        rw [hcur, ← hash_level_getD H k (pad_level level) hsib_lt, hroot]
        exact ih (hash_level H (pad_level level)) k (by omega) (by omega)
      · obtain ⟨k, hk⟩ := ho
        subst hk
        have hsib : (2 * k + 1) ^^^ 1 = 2 * k := xor_one_odd
        have hsib_lt : 2 * k + 1 < (pad_level level).length := by omega
        have hdiv : (2 * k + 1) / 2 = k := by omega
        have hroot : root_loop H level = root_loop H (hash_level H (pad_level level)) := by
          conv_lhs => rw [root_loop]
          rw [if_neg (by omega), hash_level_pad]
        rw [hsib, if_pos (by omega), hdiv, verify_fold_cons_left]
        rw [hcur, ← hash_level_getD H k (pad_level level) hsib_lt, hroot]
        exact ih (hash_level H (pad_level level)) k (by omega) (by omega)

/-! ## Claim theorems: Merkle engine -/

/-- C1: for every non-empty leaf sequence and every index i in range,
verify_proof applied to leaves[i], merkle_proof(i, leaves) and
merkle_root(leaves) returns true. -/
theorem verify_roundtrip (H : List Nat → List Nat) (leaves : List (List Nat)) (i : Nat)
    (h : i < leaves.length) :
    ∃ pf r, merkle_proof H i leaves = .ok pf ∧ merkle_root H leaves = .ok r ∧
      verify_proof H (leaves.getD i []) pf r = .ok true := by
  have h0 : (0 : Int) ≤ (i : Int) := Int.natCast_nonneg i
  have h1 : (i : Int) < (leaves.length : Int) := by exact_mod_cast h
  have hne : ¬ leaves.isEmpty = true := by
    cases leaves with
    | nil => simp at h
    | cons a l => simp
  refine ⟨proof_loop H i leaves, (root_loop H leaves).headD [], ?_, ?_, ?_⟩
  · simp [merkle_proof, h0, h1]
  · simp [merkle_root, hne]
  · unfold verify_proof
    rw [fold_loop_root H leaves.length leaves i (le_refl _) h]
    simp

theorem verify_roundtrip_witness :
    ∃ pf r, merkle_proof (fun x => x) 1 [[0], [1], [2]] = .ok pf ∧
      merkle_root (fun x => x) [[0], [1], [2]] = .ok r ∧
      verify_proof (fun x => x) ([[0], [1], [2]].getD 1 []) pf r = .ok true :=
  verify_roundtrip (fun x => x) [[0], [1], [2]] 1 (by decide)

/-- C6: merkle_root on an empty leaf list fails with the empty-batch
ValueError, and merkle_proof fails with the out-of-bounds IndexError
exactly when the index is outside [0, len(leaves)); in particular
index 5 against 3 leaves fails. -/
theorem root_empty_and_proof_range (H : List Nat → List Nat) :
    merkle_root H [] = .error (.valueError ("Cannot compute Merkle root with no leaves")) ∧
    (∀ (i : Int) (leaves : List (List Nat)),
      merkle_proof H i leaves = .error (.indexError ("target_index out of bounds")) ↔
        ¬ (0 ≤ i ∧ i < leaves.length)) ∧
    (∀ l0 l1 l2 : List Nat,
      merkle_proof H 5 [l0, l1, l2] = .error (.indexError ("target_index out of bounds"))) := by
  refine ⟨rfl, fun i leaves => ?_, fun l0 l1 l2 => ?_⟩
  · unfold merkle_proof
    by_cases h : 0 ≤ i ∧ i < leaves.length
    · simp [h]
    · simp [h]
  · unfold merkle_proof
    norm_num

/-- C7: verify_proof fails (with the unknown-direction ValueError)
exactly when some proof entry carries a direction other than "left" or
"right"; with all directions valid it never throws and returns the
byte-for-byte comparison of the folded value with the expected root. -/
theorem verify_error_characterization (H : List Nat → List Nat) (leaf : List Nat)
    (pf : List (String × List Nat)) (er : List Nat) :
    ((∃ e, verify_proof H leaf pf er = .error e) ↔
      ∃ p ∈ pf, p.1 ≠ ("left" : String) ∧ p.1 ≠ ("right" : String)) ∧
    (∀ e, verify_proof H leaf pf er = .error e →
      ∃ p ∈ pf, p.1 ≠ ("left" : String) ∧ p.1 ≠ ("right" : String) ∧
        e = .valueError ("Unknown direction " ++ p.1)) ∧
    ((∀ p ∈ pf, p.1 = ("left" : String) ∨ p.1 = ("right" : String)) →
      verify_proof H leaf pf er = .ok (fold_proof H leaf pf == er)) := by
  refine ⟨?_, ?_, ?_⟩
  · rw [← verify_fold_error_iff H pf leaf]
    unfold verify_proof
    constructor
    · rintro ⟨e, he⟩
      cases hv : verify_fold H leaf pf with
      | error e' => exact ⟨e', rfl⟩
      | ok c => rw [hv] at he; cases he
    · rintro ⟨e, he⟩
      rw [he]
      exact ⟨e, rfl⟩
  · intro e he
    unfold verify_proof at he
    cases hv : verify_fold H leaf pf with
    | error e' =>
        rw [hv] at he
        cases he
        exact verify_fold_error_msg H pf leaf e hv
    | ok c => rw [hv] at he; cases he
  · intro hgood
    unfold verify_proof
    rw [verify_fold_ok H pf leaf hgood]

theorem verify_error_characterization_witness :
    verify_proof (fun x => x) [0] [(("left" : String), [1])] [2] =
      .ok (fold_proof (fun x => x) [0] [(("left" : String), [1])] == [2]) :=
  (verify_error_characterization (fun x => x) [0] [(("left" : String), [1])] [2]).2.2
    (by decide)

/-- C8: a three-leaf batch duplicates its third leaf: the root is
hash(hash(L0 concat L1) concat hash(L2 concat L2)). -/
theorem merkle_root_three (H : List Nat → List Nat) (a b c : List Nat) :
    merkle_root H [a, b, c] = .ok (H (H (a ++ b) ++ H (c ++ c))) := by
  unfold merkle_root
  simp [root_loop, hash_level]

/-- C3 evidence: persist_manifest writes the same path twice without
failing — the second call silently replaces the first manifest — and
append_json with the same logical name succeeds twice when the
second-precision timestamps differ, so neither enforces write-once per
batch identifier. -/
theorem persist_manifest_overwrites :
    (persist_manifest (persist_manifest [] ("manifest-1") ("batch-1") ("out")).1
        ("manifest-2") ("batch-1") ("out")) =
      ([(("out/batch-1.manifest.json" : String), ("manifest-2" : String))],
        ("out/batch-1.manifest.json" : String)) ∧
    append_json [] ("store") ("batch-1") ("payload-1") ("20250101T000000Z") =
      .ok ([(("store/batch-1.20250101T000000Z.json" : String), ("payload-1" : String))],
        ("store/batch-1.20250101T000000Z.json" : String)) ∧
    append_json [(("store/batch-1.20250101T000000Z.json" : String), ("payload-1" : String))]
        ("store") ("batch-1") ("payload-2") ("20250101T000001Z") =
      .ok ([(("store/batch-1.20250101T000000Z.json" : String), ("payload-1" : String)),
            (("store/batch-1.20250101T000001Z.json" : String), ("payload-2" : String))],
        ("store/batch-1.20250101T000001Z.json" : String)) := by
  refine ⟨rfl, rfl, rfl⟩

/-! ## Helper lemmas about the stable timestamp sort -/

theorem insert_by_ts_perm (e : LogEntry) :
    ∀ l : List LogEntry, (insert_by_ts e l).Perm (e :: l)
  | [] => List.Perm.refl _
  | b :: l => by
      unfold insert_by_ts
      split
      · exact List.Perm.refl _
      · exact ((insert_by_ts_perm e l).cons b).trans (List.Perm.swap e b l)

theorem insert_by_ts_sorted (e : LogEntry) :
    ∀ l : List LogEntry, l.Pairwise (fun a b => a.ts.key ≤ b.ts.key) →
      (insert_by_ts e l).Pairwise (fun a b => a.ts.key ≤ b.ts.key)
  | [], _ => List.pairwise_singleton _ _
  | b :: l, h => by
      rcases List.pairwise_cons.mp h with ⟨hb, hl⟩
      unfold insert_by_ts
      split
      · refine List.pairwise_cons.mpr ⟨?_, h⟩
        intro x hx
        rcases List.mem_cons.mp hx with hxb | hxl
        · subst hxb; omega
        · have := hb x hxl; omega
      · refine List.pairwise_cons.mpr ⟨?_, insert_by_ts_sorted e l hl⟩
        intro x hx
        rcases List.mem_cons.mp ((insert_by_ts_perm e l).mem_iff.mp hx) with hxe | hxl
        · subst hxe; omega
        · exact hb x hxl

theorem sort_by_ts_acc_perm :
    ∀ (l acc : List LogEntry),
      (l.foldl (fun acc e => insert_by_ts e acc) acc).Perm (acc ++ l)
  | [], acc => by simp
  | e :: rest, acc => by
      have hstep := sort_by_ts_acc_perm rest (insert_by_ts e acc)
      have h1 : (insert_by_ts e acc ++ rest).Perm ((e :: acc) ++ rest) :=
        (insert_by_ts_perm e acc).append_right rest
      have h2 : ((e :: acc) ++ rest).Perm (acc ++ e :: rest) :=
        List.perm_middle.symm
      simpa using hstep.trans (h1.trans h2)

theorem sort_by_ts_perm (l : List LogEntry) : (sort_by_ts l).Perm l := by
  simpa using sort_by_ts_acc_perm l []

theorem sort_by_ts_acc_sorted :
    ∀ (l acc : List LogEntry), acc.Pairwise (fun a b => a.ts.key ≤ b.ts.key) →
      (l.foldl (fun acc e => insert_by_ts e acc) acc).Pairwise (fun a b => a.ts.key ≤ b.ts.key)
  | [], acc, h => h
  | e :: rest, acc, h => sort_by_ts_acc_sorted rest _ (insert_by_ts_sorted e acc h)

theorem sort_by_ts_sorted (l : List LogEntry) :
    (sort_by_ts l).Pairwise (fun a b => a.ts.key ≤ b.ts.key) :=
  sort_by_ts_acc_sorted l [] (List.Pairwise.nil)

theorem filter_insert_by_ts_ne (t : Datetime) (e : LogEntry) (he : ¬ e.ts = t) :
    ∀ l : List LogEntry,
      (insert_by_ts e l).filter (fun x => decide (x.ts = t)) =
        l.filter (fun x => decide (x.ts = t))
  | [] => by simp [insert_by_ts, he]
  | b :: l => by
      unfold insert_by_ts
      split
      · simp [he]
      · by_cases hb : b.ts = t
        · simp [List.filter_cons, hb, filter_insert_by_ts_ne t e he l]
        · simp [List.filter_cons, hb, filter_insert_by_ts_ne t e he l]

theorem filter_insert_by_ts_eq (t : Datetime) (e : LogEntry) (he : e.ts = t) :
    ∀ l : List LogEntry, l.Pairwise (fun a b => a.ts.key ≤ b.ts.key) →
      (insert_by_ts e l).filter (fun x => decide (x.ts = t)) =
        l.filter (fun x => decide (x.ts = t)) ++ [e]
  | [] , _ => by simp [insert_by_ts, he]
  | b :: l, h => by
      rcases List.pairwise_cons.mp h with ⟨hb, hl⟩
      unfold insert_by_ts
      split
      · rename _ => hlt
        have hnone : ∀ x ∈ b :: l, ¬ x.ts = t := by
          intro x hx hxt
          have hxk : b.ts.key ≤ x.ts.key := by
            rcases List.mem_cons.mp hx with hxb | hxl
            · subst hxb; omega
            · exact hb x hxl
          rw [hxt, ← he] at hxk
          omega
        have hfilter : (b :: l).filter (fun x => decide (x.ts = t)) = [] := by
          apply List.filter_eq_nil.mpr
          intro x hx
          simp [hnone x hx]
        simp [List.filter_cons, he, hfilter]
      · by_cases hbt : b.ts = t
        · simp [List.filter_cons, hbt, filter_insert_by_ts_eq t e he l hl]
        · simp [List.filter_cons, hbt, filter_insert_by_ts_eq t e he l hl]

theorem sort_by_ts_acc_stable (t : Datetime) :
    ∀ (l acc : List LogEntry), acc.Pairwise (fun a b => a.ts.key ≤ b.ts.key) →
      (l.foldl (fun acc e => insert_by_ts e acc) acc).filter (fun x => decide (x.ts = t)) =
        acc.filter (fun x => decide (x.ts = t)) ++ l.filter (fun x => decide (x.ts = t))
  | [], acc, _ => by simp
  | e :: rest, acc, h => by
      have hrec := sort_by_ts_acc_stable t rest (insert_by_ts e acc) (insert_by_ts_sorted e acc h)
      by_cases he : e.ts = t
      · rw [List.foldl_cons, hrec, filter_insert_by_ts_eq t e he acc h]
        simp [List.filter_cons, he]
      · rw [List.foldl_cons, hrec, filter_insert_by_ts_ne t e he acc]
        simp [List.filter_cons, he]

/-- Stability of the gather_entries sort: for every timestamp, the
subsequence of entries carrying it is preserved in its original
order. -/
theorem sort_by_ts_stable (t : Datetime) (l : List LogEntry) :
    (sort_by_ts l).filter (fun x => decide (x.ts = t)) =
      l.filter (fun x => decide (x.ts = t)) := by
  simpa using sort_by_ts_acc_stable t l [] (List.Pairwise.nil)

/-- The leaves a successful build_manifest records are the leaf hashes
of the entries in the order the entries were given. -/
theorem build_manifest_leaves (H : List Nat → List Nat) (batch_id : String)
    (entries : List LogEntry) (prev : Option String) (m : Manifest)
    (hm : build_manifest H batch_id entries prev = .ok m) :
    m.leaves = entries.map (fun e => bytesHex (leaf_hash H e)) := by
  simp only [build_manifest] at hm
  cases hr : merkle_root H (entries.map (leaf_hash H)) with
  | error e => rw [hr] at hm; simp at hm
  | ok root =>
    rw [hr] at hm
    dsimp only at hm
    cases hb : mk_batch_meta batch_id entries.length
        (((entries.head?).map LogEntry.ts).getD default_now)
        (((entries.getLast?).map LogEntry.ts).getD default_now)
        prev (some ("0x" ++ bytesHex root)) with
    | error e => rw [hb] at hm; simp at hm
    | ok batch =>
      rw [hb] at hm
      dsimp only at hm
      cases hm
      simp [List.map_map, Function.comp]

/-! ## Concrete material for counterexamples and witnesses -/

/-- A 32-byte stand-in digest for instantiating the hash parameter at
concrete inputs: truncate-pad to 32 bytes (injective on the long,
distinct encodings it is applied to below). -/
def toy_hash : List Nat → List Nat :=
  fun x => (x.map (· % 256) ++ List.replicate 32 0).take 32

/-- Concrete entry with the earlier timestamp. -/
def entry_a : LogEntry :=
  ⟨⟨2024, 1, 1, 0, 0, 0⟩, "s", "a", "m", []⟩

/-- Concrete entry one second later. -/
def entry_b : LogEntry :=
  ⟨⟨2024, 1, 1, 0, 0, 1⟩, "s", "b", "m", []⟩

/-- C2 counterexample: build_manifest itself does not sort.  Handed the
two entries in descending timestamp order, it hashes them as given, so
its leaves list is not the timestamp-ascending one the claim
prescribes (the sort happens earlier, in gather_entries). -/
theorem build_manifest_no_sort_counterexample :
    (build_manifest toy_hash ("b") [entry_b, entry_a] none).map Manifest.leaves =
      .ok [("7b226c6576656c223a2262222c226d7367223a226d222c22736f757263655f69" : String),
           ("7b226c6576656c223a2261222c226d7367223a226d222c22736f757263655f69" : String)] ∧
    (sort_by_ts [entry_b, entry_a]).map (fun e => bytesHex (leaf_hash toy_hash e)) =
      [("7b226c6576656c223a2261222c226d7367223a226d222c22736f757263655f69" : String),
       ("7b226c6576656c223a2262222c226d7367223a226d222c22736f757263655f69" : String)] ∧
    ([("7b226c6576656c223a2262222c226d7367223a226d222c22736f757263655f69" : String),
      ("7b226c6576656c223a2261222c226d7367223a226d222c22736f757263655f69" : String)] ≠
     [("7b226c6576656c223a2261222c226d7367223a226d222c22736f757263655f69" : String),
      ("7b226c6576656c223a2262222c226d7367223a226d222c22736f757263655f69" : String)]) := by
  refine ⟨?_, rfl, by decide⟩
  simp [build_manifest, merkle_root, root_loop, hash_level]
  rfl

/-- C2 (amended): the timestamp sort lives in gather_entries, not in
build_manifest: build_manifest hashes the entries in the order it
receives them, and the gather_entries sort delivers them in
timestamp-ascending order, as a permutation of the input that keeps
entries with equal timestamps in their original relative order (stable
sort); composing the two hashes the batch in the canonical order. -/
theorem build_manifest_order_and_sort (H : List Nat → List Nat) (batch_id : String)
    (entries : List LogEntry) (prev : Option String) (m : Manifest)
    (hm : build_manifest H batch_id (sort_by_ts entries) prev = .ok m) :
    m.leaves = (sort_by_ts entries).map (fun e => bytesHex (leaf_hash H e)) ∧
    (sort_by_ts entries).Pairwise (fun a b => a.ts.key ≤ b.ts.key) ∧
    (sort_by_ts entries).Perm entries ∧
    ∀ t : Datetime, (sort_by_ts entries).filter (fun x => decide (x.ts = t)) =
      entries.filter (fun x => decide (x.ts = t)) :=
  ⟨build_manifest_leaves H batch_id (sort_by_ts entries) prev m hm,
   sort_by_ts_sorted entries, sort_by_ts_perm entries,
   fun t => sort_by_ts_stable t entries⟩

theorem build_manifest_order_and_sort_witness :
    ({ batch :=
        { batch_id := ("b" : String), count := 2,
          window_start := ⟨2024, 1, 1, 0, 0, 0⟩, window_end := ⟨2024, 1, 1, 0, 0, 1⟩,
          hash_alg := ("SHA-256" : String), leaf_order := ("ts_asc_seq" : String),
          signer_alg := ("ECDSA_secp256k1" : String), signer_pub := none,
          prev_merkle_root := none,
          root := some ("0x7b226c6576656c223a2261222c226d7367223a226d222c22736f757263655f69" : String),
          sig := none },
       leaves := [("7b226c6576656c223a2261222c226d7367223a226d222c22736f757263655f69" : String),
                  ("7b226c6576656c223a2262222c226d7367223a226d222c22736f757263655f69" : String)] } :
        Manifest).leaves =
      (sort_by_ts [entry_b, entry_a]).map (fun e => bytesHex (leaf_hash toy_hash e)) :=
  (build_manifest_order_and_sort toy_hash ("b") [entry_b, entry_a] none _
    (by simp [build_manifest, merkle_root, root_loop, hash_level]; rfl)).1

/-! ## Hex rendering and validator lemmas -/

/-- The rendered form the spec prescribes for hash values: "0x" then 64
hex digits (all lowercase, since the digit set is 0-9a-f). -/
def is_hex_render (s : String) : Bool :=
  startswith_0x s && (s.data.length == 66) && (s.data.drop 2).all is_hex_digit

theorem hexChar_hex : ∀ n < 16, is_hex_digit (hexChar n) = true := by decide

theorem byteHex_hex {b : Nat} (hb : b < 256) : ∀ c ∈ byteHex b, is_hex_digit c = true := by
  intro c hc
  rcases List.mem_cons.mp hc with h | h
  · subst h; exact hexChar_hex _ (by omega)
  · rcases List.mem_cons.mp h with h | h
    · subst h; exact hexChar_hex _ (by omega)
    · simp at h

theorem bytesHex_data_cons (b : Nat) (l : List Nat) :
    (bytesHex (b :: l)).data = byteHex b ++ (bytesHex l).data := rfl

theorem bytesHex_length : ∀ l : List Nat, (bytesHex l).data.length = 2 * l.length
  | [] => rfl
  | b :: l => by
      rw [bytesHex_data_cons]
      simp [byteHex, bytesHex_length l]
      omega

theorem bytesHex_hex : ∀ (l : List Nat), (∀ b ∈ l, b < 256) →
    ∀ c ∈ (bytesHex l).data, is_hex_digit c = true
  | [], _ => by intro c hc; simp [bytesHex] at hc
  | b :: l, h => by
      intro c hc
      rw [bytesHex_data_cons] at hc
      rcases List.mem_append.mp hc with h1 | h1
      · exact byteHex_hex (h b (List.mem_cons_self _ _)) c h1
      · exact bytesHex_hex l (fun x hx => h x (List.mem_cons_of_mem _ hx)) c h1

theorem startswith_0x_append (s : String) : startswith_0x ("0x" ++ s) = true := by
  have hd : ("0x" ++ s).data = '0' :: 'x' :: s.data := String.data_append _ _
  simp [startswith_0x, hd]

theorem startswith_0x_elim {s : String} (h : startswith_0x s = true) :
    ∃ t, s.data = '0' :: 'x' :: t := by
  unfold startswith_0x at h
  cases hd : s.data with
  | nil => rw [hd] at h; cases h
  | cons c1 rest =>
    cases rest with
    | nil => rw [hd] at h; cases h
    | cons c2 t =>
      rw [hd] at h
      simp at h
      obtain ⟨h1, h2⟩ := h
      exact ⟨t, by rw [h1, h2]⟩

theorem validate_hex32_ok_render (v : String) (ow : Option String)
    (h : validate_hex32 (some v) = .ok ow) :
    ∃ w, ow = some w ∧ is_hex_render w = true := by
  simp only [validate_hex32] at h
  set nm := if startswith_0x (lower_str v) then lower_str v else "0x" ++ lower_str v with hnm
  by_cases h66 : nm.data.length ≠ 66
  · rw [if_pos h66] at h; cases h
  · rw [if_neg h66] at h
    by_cases hany : (nm.data.drop 2).any (fun c => ! is_hex_digit c) = true
    · rw [if_pos hany] at h; cases h
    · rw [if_neg hany] at h
      cases h
      refine ⟨nm, rfl, ?_⟩
      have hsw : startswith_0x nm = true := by
        rw [hnm]
        by_cases hs : startswith_0x (lower_str v) = true
        · rw [if_pos hs]; exact hs
        · rw [if_neg hs]; exact startswith_0x_append _
      have hall : (nm.data.drop 2).all is_hex_digit = true := by
        rw [List.all_eq_true]
        intro c hc
        by_contra hbad
        exact hany (List.any_eq_true.mpr ⟨c, hc, by simp [hbad]⟩)
      have h66' : nm.data.length = 66 := by omega
      simp [is_hex_render, hsw, hall, h66']

theorem toLower_hex_digit (c : Char) (h : is_hex_digit c = true) : Char.toLower c = c := by
  simp [is_hex_digit, hex_digits] at h
  rcases h with h|h|h|h|h|h|h|h|h|h|h|h|h|h|h|h <;> subst h <;> decide

theorem is_hex_render_elim {w : String} (h : is_hex_render w = true) :
    ∃ t : List Char, w.data = '0' :: 'x' :: t ∧ t.length = 64 ∧
      ∀ c ∈ t, is_hex_digit c = true := by
  simp only [is_hex_render, Bool.and_eq_true, beq_iff_eq, List.all_eq_true] at h
  obtain ⟨⟨hsw, hlen⟩, hall⟩ := h
  obtain ⟨t, ht⟩ := startswith_0x_elim hsw
  refine ⟨t, ht, ?_, ?_⟩
  · rw [ht] at hlen; simp at hlen; omega
  · intro c hc
    apply hall
    rw [ht]
    simpa using hc

/-- The validator is a no-op on an already-rendered hash string: this
is what lets a prior manifest's root flow into the next manifest's
prev_merkle_root unchanged. -/
theorem validate_hex32_fixed (w : String) (h : is_hex_render w = true) :
    validate_hex32 (some w) = .ok (some w) := by
  obtain ⟨t, hdata, hlen, hhex⟩ := is_hex_render_elim h
  have hmap : t.map Char.toLower = t :=
    (List.map_congr_left (fun c hc => toLower_hex_digit c (hhex c hc))).trans (List.map_id t)
  have hlow : lower_str w = w := by
    show String.mk (w.data.map Char.toLower) = w
    rw [hdata]
    simp only [List.map_cons, hmap]
    rw [show Char.toLower '0' = '0' from by decide, show Char.toLower 'x' = 'x' from by decide]
    rw [← hdata]
  have hsw : startswith_0x w = true := by
    simp only [is_hex_render, Bool.and_eq_true] at h
    exact h.1.1
  simp only [validate_hex32, hlow, if_pos hsw]
  rw [if_neg (by rw [hdata]; simp; omega)]
  rw [if_neg ?hany]
  case hany =>
    rw [hdata]
    simp only [List.drop_succ_cons, List.drop_zero]
    rw [Bool.not_eq_true]
    rw [List.any_eq_false]
    intro c hc
    simp [hhex c hc]

/-- What a successful build_manifest pins down: the computed root, both
validator calls, and the rendered leaves. -/
theorem build_manifest_ok_elim (H : List Nat → List Nat) (batch_id : String)
    (entries : List LogEntry) (prev : Option String) (m : Manifest)
    (hm : build_manifest H batch_id entries prev = .ok m) :
    ∃ root, merkle_root H (entries.map (leaf_hash H)) = .ok root ∧
      validate_hex32 prev = .ok m.batch.prev_merkle_root ∧
      validate_hex32 (some ("0x" ++ bytesHex root)) = .ok m.batch.root ∧
      m.leaves = (entries.map (leaf_hash H)).map bytesHex := by
  simp only [build_manifest] at hm
  cases hr : merkle_root H (entries.map (leaf_hash H)) with
  | error e => rw [hr] at hm; simp at hm
  | ok root =>
    rw [hr] at hm
    dsimp only at hm
    refine ⟨root, rfl, ?_⟩
    simp only [mk_batch_meta] at hm
    cases hp : validate_hex32 prev with
    | error e => rw [hp] at hm; simp at hm
    | ok prev_n =>
      rw [hp] at hm
      dsimp only at hm
      cases hq : validate_hex32 (some ("0x" ++ bytesHex root)) with
      | error e => rw [hq] at hm; simp at hm
      | ok root_n =>
        rw [hq] at hm
        dsimp only at hm
        cases hm
        exact ⟨rfl, rfl, rfl⟩

/-! ## Sibling-hash bookkeeping for the proof wire form -/

theorem getD_mem {l : List (List Nat)} {i : Nat} (h : i < l.length) : l.getD i [] ∈ l := by
  rw [List.getD_eq_getElem?_getD, List.getElem?_eq_getElem h]
  exact List.getElem_mem _

theorem mem_pad_level {x : List Nat} {level : List (List Nat)} (hne : level ≠ [])
    (hx : x ∈ pad_level level) : x ∈ level := by
  unfold pad_level at hx
  split at hx
  · rcases List.mem_append.mp hx with h | h
    · exact h
    · simp only [List.mem_singleton] at h
      subst h
      rw [List.getLastD_eq_getLast?]
      cases hl : level.getLast? with
      | none => exact absurd (List.getLast?_eq_none_iff.mp hl) hne
      | some y => exact List.mem_of_getLast?_eq_some hl
  · exact hx

theorem mem_hash_level {x : List Nat} (H : List Nat → List Nat) :
    ∀ l : List (List Nat), x ∈ hash_level H l → ∃ y, x = H y
  | [], h => by simp [hash_level] at h
  | [a], h => by
      simp [hash_level] at h
      exact ⟨a ++ a, h⟩
  | a :: b :: rest, h => by
      rcases List.mem_cons.mp h with h1 | h1
      · exact ⟨a ++ b, h1⟩
      · exact mem_hash_level H rest h1

theorem proof_loop_siblings (H : List Nat → List Nat)
    (hH : ∀ y, (H y).length = 32 ∧ ∀ b ∈ H y, b < 256) :
    ∀ (n : Nat) (level : List (List Nat)) (idx : Nat), level.length ≤ n →
      idx < level.length → (∀ x ∈ level, x.length = 32 ∧ ∀ b ∈ x, b < 256) →
      ∀ e ∈ proof_loop H idx level, e.2.length = 32 ∧ ∀ b ∈ e.2, b < 256 := by
  intro n
  induction n with
  | zero => intro level idx hn hidx _ e _; omega
  | succ n ih =>
    intro level idx hn hidx hlevel e he
    by_cases hlen : level.length ≤ 1
    · rw [proof_loop, if_pos hlen] at he
      simp at he
    · push_neg at hlen
      rw [proof_loop, if_neg (by omega)] at he
      have hne : level ≠ [] := by intro hc; rw [hc] at hlen; simp at hlen
      have hpl : (pad_level level).length = level.length ∨
          (pad_level level).length = level.length + 1 := by
        rw [pad_level_length]; split
        · right; rfl
        · left; rfl
      have hlvl_even : (pad_level level).length % 2 = 0 := pad_level_even level
      have hnext_len : (hash_level H (pad_level level)).length =
          ((pad_level level).length + 1) / 2 := hash_level_length H _
      have hsib_lt : idx ^^^ 1 < (pad_level level).length := by
        rcases Nat.even_or_odd idx with hev | hod
        · obtain ⟨k, hk⟩ := hev
          have hk2 : idx = 2 * k := by omega
          rw [hk2, xor_one_even]
          omega
        · obtain ⟨k, hk⟩ := hod
          rw [hk, xor_one_odd]
          omega
      rcases List.mem_cons.mp he with h1 | h1
      · subst h1
        exact hlevel _ (mem_pad_level hne (getD_mem hsib_lt))
      · refine ih (hash_level H (pad_level level)) (idx / 2) (by omega) (by omega) ?_ e h1
        intro x hx
        obtain ⟨y, hy⟩ := mem_hash_level H _ hx
        rw [hy]
        exact hH y

theorem hex_ne_x {c : Char} (h : is_hex_digit c = true) : (c == 'x') = false := by
  simp [is_hex_digit, hex_digits] at h
  rcases h with h|h|h|h|h|h|h|h|h|h|h|h|h|h|h|h <;> subst h <;> decide

theorem bare_hex_not_0x {s : String}
    (hhex : ∀ c ∈ s.data, is_hex_digit c = true) : startswith_0x s = false := by
  unfold startswith_0x
  cases hd : s.data with
  | nil => rfl
  | cons c1 rest =>
    cases rest with
    | nil => rfl
    | cons c2 t =>
      have h2 : is_hex_digit c2 = true := hhex c2 (by rw [hd]; simp)
      show (c1 == '0' && c2 == 'x') = false
      rw [hex_ne_x h2, Bool.and_false]

theorem render_of_good (x : List Nat) (h32 : x.length = 32) (hb : ∀ b ∈ x, b < 256) :
    is_hex_render ("0x" ++ bytesHex x) = true := by
  have hd : ("0x" ++ bytesHex x).data = '0' :: 'x' :: (bytesHex x).data :=
    String.data_append _ _
  have hlen : (bytesHex x).data.length = 64 := by rw [bytesHex_length, h32]
  simp only [is_hex_render, startswith_0x_append, hd, Bool.true_and, List.length_cons,
    Bool.and_eq_true, beq_iff_eq, List.all_eq_true, List.drop_succ_cons, List.drop_zero]
  refine ⟨by omega, ?_⟩
  intro c hc
  exact bytesHex_hex x hb c hc

theorem toy_hash_good : ∀ x, (toy_hash x).length = 32 ∧ ∀ b ∈ toy_hash x, b < 256 := by
  intro x
  constructor
  · simp [toy_hash]
  · intro b hb
    simp only [toy_hash] at hb
    have hb' := List.mem_of_mem_take hb
    rcases List.mem_append.mp hb' with h | h
    · obtain ⟨y, _, hy⟩ := List.mem_map.mp h
      omega
    · have := List.eq_of_mem_replicate h
      omega

/-! ## Claim theorems: rendered hash forms (C4) -/

/-- C4 counterexample: the persisted manifest's leaves are rendered by
leaf.hex() with no "0x" prefix, so not every externally rendered hash
is a 0x-prefixed string as the claim states. -/
theorem hex_render_counterexample :
    (build_manifest toy_hash ("b") [entry_a] none).map Manifest.leaves =
      .ok [("7b226c6576656c223a2261222c226d7367223a226d222c22736f757263655f69" : String)] ∧
    startswith_0x
      ("7b226c6576656c223a2261222c226d7367223a226d222c22736f757263655f69" : String) = false := by
  constructor
  · simp [build_manifest, merkle_root, root_loop]
    rfl
  · decide

/-- C4 (amended): in every successfully built manifest the root and,
when present, the prev root are lowercase 0x-prefixed 64-hex-digit
strings, and so is every sibling hash of the proof wire form; the
manifest's leaves however are rendered as bare lowercase 64-hex-digit
strings without the 0x prefix. -/
theorem hex_render_amended (H : List Nat → List Nat)
    (hH : ∀ y, (H y).length = 32 ∧ ∀ b ∈ H y, b < 256)
    (batch_id : String) (entries : List LogEntry) (prev : Option String) (m : Manifest)
    (hm : build_manifest H batch_id entries prev = .ok m) :
    (∃ r, m.batch.root = some r ∧ is_hex_render r = true) ∧
    (∀ p, m.batch.prev_merkle_root = some p → is_hex_render p = true) ∧
    (∀ s ∈ m.leaves, s.data.length = 64 ∧ (∀ c ∈ s.data, is_hex_digit c = true) ∧
      startswith_0x s = false) ∧
    (∀ (i : Int) (pf : List (String × List Nat)),
      merkle_proof H i (entries.map (leaf_hash H)) = .ok pf →
      ∀ q ∈ serialize_proof pf, is_hex_render q.2 = true) := by
  obtain ⟨root, hroot, hprev, hq, hleaves⟩ :=
    build_manifest_ok_elim H batch_id entries prev m hm
  refine ⟨?_, ?_, ?_, ?_⟩
  · obtain ⟨w, hw, hrender⟩ := validate_hex32_ok_render _ _ hq
    exact ⟨w, hw, hrender⟩
  · intro p hp
    cases prev with
    | none =>
        simp only [validate_hex32] at hprev
        have hnone : (none : Option String) = m.batch.prev_merkle_root := Except.ok.inj hprev
        rw [← hnone] at hp
        cases hp
    | some v =>
        obtain ⟨w, hw, hrender⟩ := validate_hex32_ok_render _ _ hprev
        rw [hw] at hp
        cases hp
        exact hrender
  · intro s hs
    rw [hleaves] at hs
    obtain ⟨x, hx, hsx⟩ := List.mem_map.mp hs
    obtain ⟨e, _, he⟩ := List.mem_map.mp hx
    subst hsx
    have hgood : x.length = 32 ∧ ∀ b ∈ x, b < 256 := by
      rw [← he]
      exact hH _
    have hlen64 : (bytesHex x).data.length = 64 := by
      rw [bytesHex_length, hgood.1]
    have hhex : ∀ c ∈ (bytesHex x).data, is_hex_digit c = true := bytesHex_hex x hgood.2
    exact ⟨hlen64, hhex, bare_hex_not_0x hhex⟩
  · intro i pf hpf q hqmem
    unfold merkle_proof at hpf
    by_cases hrange : 0 ≤ i ∧ i < (entries.map (leaf_hash H)).length
    · rw [if_neg (by simpa using hrange)] at hpf
      cases hpf
      obtain ⟨p, hpmem, hps⟩ := List.mem_map.mp hqmem
      subst hps
      have hgoodlv : ∀ x ∈ entries.map (leaf_hash H), x.length = 32 ∧ ∀ b ∈ x, b < 256 := by
        intro x hx
        obtain ⟨e, _, he⟩ := List.mem_map.mp hx
        rw [← he]
        exact hH _
      have hidx : i.toNat < (entries.map (leaf_hash H)).length := by omega
      have hsib := proof_loop_siblings H hH (entries.map (leaf_hash H)).length
        (entries.map (leaf_hash H)) i.toNat (le_refl _) hidx hgoodlv p hpmem
      exact render_of_good p.2 hsib.1 hsib.2
    · rw [if_pos (by simpa using hrange)] at hpf
      cases hpf

theorem hex_render_amended_witness :
    ∃ r, ({ batch :=
              { batch_id := ("b" : String), count := 1,
                window_start := ⟨2024, 1, 1, 0, 0, 0⟩, window_end := ⟨2024, 1, 1, 0, 0, 0⟩,
                hash_alg := ("SHA-256" : String), leaf_order := ("ts_asc_seq" : String),
                signer_alg := ("ECDSA_secp256k1" : String), signer_pub := none,
                prev_merkle_root := none,
                root := some ("0x7b226c6576656c223a2261222c226d7367223a226d222c22736f757263655f69" : String),
                sig := none },
            leaves := [("7b226c6576656c223a2261222c226d7367223a226d222c22736f757263655f69" : String)] } :
          Manifest).batch.root = some r ∧ is_hex_render r = true :=
  (hex_render_amended toy_hash toy_hash_good ("b") [entry_a] none _
    (by simp [build_manifest, merkle_root, root_loop]; rfl)).1

/-! ## Claim theorems: prev root handling (C5) -/

/-- C5 counterexample: prev_root is not copied verbatim: an uppercase
value is lowercased by _validate_hex32 before being stored, and an
invalid value is rejected with a ValueError rather than accepted
opaquely. -/
theorem prev_root_transformed_counterexample :
    (build_manifest toy_hash ("b") [entry_a]
        (some ("0xAAAAAAAAAAAAAAAAAAAAAAAAAAAAAAAAAAAAAAAAAAAAAAAAAAAAAAAAAAAAAAAA" : String))).map
        (fun m => m.batch.prev_merkle_root) =
      .ok (some ("0xaaaaaaaaaaaaaaaaaaaaaaaaaaaaaaaaaaaaaaaaaaaaaaaaaaaaaaaaaaaaaaaa" : String)) ∧
    (("0xaaaaaaaaaaaaaaaaaaaaaaaaaaaaaaaaaaaaaaaaaaaaaaaaaaaaaaaaaaaaaaaa" : String) ≠
      ("0xAAAAAAAAAAAAAAAAAAAAAAAAAAAAAAAAAAAAAAAAAAAAAAAAAAAAAAAAAAAAAAAA" : String)) ∧
    build_manifest toy_hash ("b") [entry_a] (some ("zz" : String)) =
      .error (.valueError ("Expected 32-byte hex string, got zz")) := by
  refine ⟨?_, by decide, ?_⟩
  · simp [build_manifest, merkle_root, root_loop]
    rfl
  · simp [build_manifest, merkle_root, root_loop]
    rfl

/-- C5 (amended): prev_root is normalized and validated by
_validate_hex32, not copied verbatim; but on an already-rendered value
(lowercase 0x-prefixed 64-hex) the validator is the identity, so such a
prev root — in particular a prior manifest's root — is stored
unchanged, and chaining B2 on B1's root reproduces it byte-for-byte. -/
theorem prev_root_copy (H : List Nat → List Nat) :
    (∀ (bid : String) (entries : List LogEntry) (prev : String) (m : Manifest),
      is_hex_render prev = true →
      build_manifest H bid entries (some prev) = .ok m →
      m.batch.prev_merkle_root = some prev) ∧
    (∀ (bid1 : String) (es1 : List LogEntry) (m1 : Manifest) (r1 : String)
        (bid2 : String) (es2 : List LogEntry) (m2 : Manifest),
      build_manifest H bid1 es1 none = .ok m1 → m1.batch.root = some r1 →
      build_manifest H bid2 es2 (some r1) = .ok m2 →
      m2.batch.prev_merkle_root = some r1) := by
  have part1 : ∀ (bid : String) (entries : List LogEntry) (prev : String) (m : Manifest),
      is_hex_render prev = true →
      build_manifest H bid entries (some prev) = .ok m →
      m.batch.prev_merkle_root = some prev := by
    intro bid entries prev m hrender hm
    obtain ⟨root, _, hprev, _, _⟩ := build_manifest_ok_elim H bid entries (some prev) m hm
    rw [validate_hex32_fixed prev hrender] at hprev
    exact (Except.ok.inj hprev).symm
  refine ⟨part1, ?_⟩
  intro bid1 es1 m1 r1 bid2 es2 m2 h1 hr1 h2
  obtain ⟨root1, _, _, hq1, _⟩ := build_manifest_ok_elim H bid1 es1 none m1 h1
  obtain ⟨w, hw, hrender⟩ := validate_hex32_ok_render _ _ hq1
  rw [hr1] at hw
  cases hw
  exact part1 bid2 es2 r1 m2 hrender h2

theorem prev_root_copy_witness :
    ({ batch :=
        { batch_id := ("b2" : String), count := 1,
          window_start := ⟨2024, 1, 1, 0, 0, 1⟩, window_end := ⟨2024, 1, 1, 0, 0, 1⟩,
          hash_alg := ("SHA-256" : String), leaf_order := ("ts_asc_seq" : String),
          signer_alg := ("ECDSA_secp256k1" : String), signer_pub := none,
          prev_merkle_root :=
            some ("0x7b226c6576656c223a2261222c226d7367223a226d222c22736f757263655f69" : String),
          root := some ("0x7b226c6576656c223a2262222c226d7367223a226d222c22736f757263655f69" : String),
          sig := none },
       leaves := [("7b226c6576656c223a2262222c226d7367223a226d222c22736f757263655f69" : String)] } :
        Manifest).batch.prev_merkle_root =
      some ("0x7b226c6576656c223a2261222c226d7367223a226d222c22736f757263655f69" : String) :=
  (prev_root_copy toy_hash).2 ("b1") [entry_a] _
    ("0x7b226c6576656c223a2261222c226d7367223a226d222c22736f757263655f69") ("b2") [entry_b] _
    (by simp [build_manifest, merkle_root, root_loop]; rfl) rfl
    (by simp [build_manifest, merkle_root, root_loop]; rfl)

/-! ## Order lemmas for the code-point comparison -/

theorem chars_lt_irrefl : ∀ a : List Char, chars_lt a a = false
  | [] => rfl
  | c :: l => by simp [chars_lt, chars_lt_irrefl l]

theorem chars_lt_trans : ∀ a b c : List Char,
    chars_lt a b = true → chars_lt b c = true → chars_lt a c = true
  | [], [], _, h1, _ => by cases h1
  | [], _ :: _, [], _, h2 => by cases h2
  | [], _ :: _, _ :: _, _, _ => rfl
  | _ :: _, [], _, h1, _ => by cases h1
  | _ :: _, _ :: _, [], _, h2 => by cases h2
  | a0 :: as, b0 :: bs, c0 :: cs, h1, h2 => by
      simp only [chars_lt] at h1 h2 ⊢
      by_cases hab : a0.toNat < b0.toNat
      · by_cases hbc : b0.toNat < c0.toNat
        · simp [show a0.toNat < c0.toNat by omega]
        · rw [if_neg hbc] at h2
          by_cases hcb : c0.toNat < b0.toNat
          · rw [if_pos hcb] at h2; cases h2
          · simp [show a0.toNat < c0.toNat by omega]
      · rw [if_neg hab] at h1
        by_cases hba : b0.toNat < a0.toNat
        · rw [if_pos hba] at h1; cases h1
        · rw [if_neg hba] at h1
          by_cases hbc : b0.toNat < c0.toNat
          · simp [show a0.toNat < c0.toNat by omega]
          · rw [if_neg hbc] at h2
            by_cases hcb : c0.toNat < b0.toNat
            · rw [if_pos hcb] at h2; cases h2
            · rw [if_neg hcb] at h2
              have hrec := chars_lt_trans as bs cs h1 h2
              simp [show ¬ a0.toNat < c0.toNat by omega, show ¬ c0.toNat < a0.toNat by omega, hrec]

theorem chars_lt_asymm {a b : List Char} (h : chars_lt a b = true) : chars_lt b a = false := by
  by_contra hc
  rw [Bool.not_eq_false] at hc
  have := chars_lt_trans a b a h hc
  rw [chars_lt_irrefl a] at this
  cases this

theorem chars_lt_connex : ∀ a b : List Char,
    chars_lt a b = false → chars_lt b a = false → a = b
  | [], [], _, _ => rfl
  | [], _ :: _, h1, _ => by cases h1
  | _ :: _, [], _, h2 => by cases h2
  | a0 :: as, b0 :: bs, h1, h2 => by
      simp only [chars_lt] at h1 h2
      by_cases hab : a0.toNat < b0.toNat
      · rw [if_pos hab] at h1; cases h1
      · by_cases hba : b0.toNat < a0.toNat
        · rw [if_pos hba] at h2; cases h2
        · rw [if_neg hab, if_neg hba] at h1
          rw [if_neg hba, if_neg hab] at h2
          have hn : a0.toNat = b0.toNat := by omega
          have hhead : a0 = b0 :=
            Char.eq_of_val_eq (UInt32.eq_of_val_eq (Fin.eq_of_val_eq hn))
          have htail := chars_lt_connex as bs h1 h2
          rw [hhead, htail]

theorem str_lt_asymm {a b : String} (h : str_lt a b = true) : str_lt b a = false :=
  chars_lt_asymm h

theorem str_lt_trans {a b c : String} (h1 : str_lt a b = true) (h2 : str_lt b c = true) :
    str_lt a c = true :=
  chars_lt_trans a.data b.data c.data h1 h2

theorem str_lt_connex {a b : String} (h1 : str_lt a b = false) (h2 : str_lt b a = false) :
    a = b := by
  have hd := chars_lt_connex a.data b.data h1 h2
  cases a
  cases b
  simp only at hd
  exact congrArg String.mk hd

/-! ## The key sort of json.dumps(sort_keys=True) -/

theorem insert_by_key_perm (p : String × JVal) :
    ∀ l : List (String × JVal), (insert_by_key p l).Perm (p :: l)
  | [] => List.Perm.refl _
  | q :: l => by
      unfold insert_by_key
      split
      · exact List.Perm.refl _
      · exact ((insert_by_key_perm p l).cons q).trans (List.Perm.swap p q l)

theorem insert_by_key_sorted (p : String × JVal) :
    ∀ l : List (String × JVal), l.Pairwise (fun a b => str_lt b.1 a.1 = false) →
      (insert_by_key p l).Pairwise (fun a b => str_lt b.1 a.1 = false)
  | [], _ => List.pairwise_singleton _ _
  | q :: l, h => by
      rcases List.pairwise_cons.mp h with ⟨hq, hl⟩
      unfold insert_by_key
      split
      · rename_i hlt
        refine List.pairwise_cons.mpr ⟨?_, h⟩
        intro x hx
        rcases List.mem_cons.mp hx with hxq | hxl
        · subst hxq; exact str_lt_asymm hlt
        · by_contra hc
          rw [Bool.not_eq_false] at hc
          have hxq := str_lt_trans hc hlt
          rw [hq x hxl] at hxq
          cases hxq
      · rename_i hnlt
        refine List.pairwise_cons.mpr ⟨?_, insert_by_key_sorted p l hl⟩
        intro x hx
        rcases List.mem_cons.mp ((insert_by_key_perm p l).mem_iff.mp hx) with hxp | hxl
        · subst hxp
          simpa using hnlt
        · exact hq x hxl

theorem sort_fields_acc_perm :
    ∀ (l acc : List (String × JVal)),
      (l.foldl (fun acc p => insert_by_key p acc) acc).Perm (acc ++ l)
  | [], acc => by simp
  | p :: rest, acc => by
      have hstep := sort_fields_acc_perm rest (insert_by_key p acc)
      have h1 : (insert_by_key p acc ++ rest).Perm ((p :: acc) ++ rest) :=
        (insert_by_key_perm p acc).append_right rest
      have h2 : ((p :: acc) ++ rest).Perm (acc ++ p :: rest) := List.perm_middle.symm
      simpa using hstep.trans (h1.trans h2)

theorem sort_fields_perm (l : List (String × JVal)) : (sort_fields l).Perm l := by
  simpa using sort_fields_acc_perm l []

theorem sort_fields_acc_sorted :
    ∀ (l acc : List (String × JVal)),
      acc.Pairwise (fun a b => str_lt b.1 a.1 = false) →
      (l.foldl (fun acc p => insert_by_key p acc) acc).Pairwise
        (fun a b => str_lt b.1 a.1 = false)
  | [], _, h => h
  | p :: rest, acc, h => sort_fields_acc_sorted rest _ (insert_by_key_sorted p acc h)

theorem sort_fields_sorted (l : List (String × JVal)) :
    (sort_fields l).Pairwise (fun a b => str_lt b.1 a.1 = false) :=
  sort_fields_acc_sorted l [] List.Pairwise.nil

/-- Two permutations of the same duplicate-key-free item set that are
both key-sorted are equal: the sorted rendering of a dict is determined
by its contents. -/
theorem sorted_nodup_eq (l1 l2 : List (String × JVal)) (hperm : l1.Perm l2)
    (hs1 : l1.Pairwise (fun a b => str_lt b.1 a.1 = false))
    (hs2 : l2.Pairwise (fun a b => str_lt b.1 a.1 = false))
    (hnd : (l1.map Prod.fst).Nodup) : l1 = l2 := by
  haveI : IsAntisymm (String × JVal) (fun p q => str_lt p.1 q.1 = true) :=
    ⟨fun a b h1 h2 => absurd h1 (by rw [str_lt_asymm h2]; simp)⟩
  have hnd2 : (l2.map Prod.fst).Nodup := ((hperm.map Prod.fst).nodup_iff).mp hnd
  have strict : ∀ (l : List (String × JVal)),
      l.Pairwise (fun a b => str_lt b.1 a.1 = false) → (l.map Prod.fst).Nodup →
      l.Pairwise (fun p q => str_lt p.1 q.1 = true) := by
    intro l hs hn
    have hne : l.Pairwise (fun p q : String × JVal => p.1 ≠ q.1) :=
      List.pairwise_map.mp hn
    refine (hs.and hne).imp ?_
    rintro a b ⟨hab, hne'⟩
    by_contra hc
    rw [Bool.not_eq_true] at hc
    exact hne' (str_lt_connex hc hab)
  exact List.eq_of_perm_of_sorted hperm (strict l1 hs1 hnd) (strict l2 hs2 hnd2)

theorem sort_fields_eq_of_perm {l1 l2 : List (String × JVal)} (h : l1.Perm l2)
    (hnd : (l1.map Prod.fst).Nodup) : sort_fields l1 = sort_fields l2 :=
  sorted_nodup_eq _ _
    ((sort_fields_perm l1).trans (h.trans (sort_fields_perm l2).symm))
    (sort_fields_sorted l1) (sort_fields_sorted l2)
    (((sort_fields_perm l1).map Prod.fst).nodup_iff.mpr hnd)

/-! ## Dict semantics: closed form of dict_update -/

/-- Python d.get(k, default): the value at the first (for a dict, only)
occurrence of k, else the default. -/
def lookupD : List (String × JVal) → String → JVal → JVal
  | [], _, d => d
  | p :: l, k, d => if p.1 = k then p.2 else lookupD l k d

/-- Closed form of dict_update d f (for duplicate-free key sets): every
entry of d with its value overridden by f where f has the key, then the
entries of f whose keys are new, in f's order. -/
def dict_cf (d f : List (String × JVal)) : List (String × JVal) :=
  d.map (fun p => (p.1, lookupD f p.1 p.2)) ++
    f.filter (fun p => ! decide (p.1 ∈ d.map Prod.fst))

theorem lookupD_not_mem {k : String} {v : JVal} :
    ∀ {f : List (String × JVal)}, k ∉ f.map Prod.fst → lookupD f k v = v
  | [], _ => rfl
  | p :: l, h => by
      have hp : ¬ p.1 = k := by simp at h; intro hc; exact absurd hc.symm h.1
      rw [lookupD, if_neg hp]
      exact lookupD_not_mem (by simp at h ⊢; exact h.2)

theorem lookupD_default_irrel {k : String} (v1 v2 : JVal) :
    ∀ {f : List (String × JVal)}, k ∈ f.map Prod.fst →
      lookupD f k v1 = lookupD f k v2
  | [], h => by simp at h
  | p :: l, h => by
      by_cases hp : p.1 = k
      · rw [lookupD, lookupD, if_pos hp, if_pos hp]
      · rw [lookupD, lookupD, if_neg hp, if_neg hp]
        refine lookupD_default_irrel v1 v2 ?_
        simp at h
        rcases h with h | h
        · exact absurd h.symm hp
        · simpa using h

theorem lookupD_perm {k : String} {v : JVal} {f1 f2 : List (String × JVal)}
    (h : f1.Perm f2) : (f1.map Prod.fst).Nodup → lookupD f1 k v = lookupD f2 k v := by
  induction h with
  | nil => intro _; rfl
  | cons p h ih =>
      intro hnd
      rw [List.map_cons, List.nodup_cons] at hnd
      by_cases hp : p.1 = k
      · rw [lookupD, lookupD, if_pos hp, if_pos hp]
      · rw [lookupD, lookupD, if_neg hp, if_neg hp]
        exact ih hnd.2
  | swap p q l =>
      intro hnd
      have hqp : ¬ q.1 = p.1 := by
        rw [List.map_cons, List.map_cons, List.nodup_cons] at hnd
        intro hc
        exact hnd.1 (by simp [hc])
      by_cases hq : q.1 = k
      · have hp : ¬ p.1 = k := fun hc => hqp (hq.trans hc.symm)
        simp [lookupD, hp, hq]
      · by_cases hp : p.1 = k
        · simp [lookupD, hp, hq]
        · simp [lookupD, hp, hq]
  | trans h1 h2 ih1 ih2 =>
      intro hnd
      exact (ih1 hnd).trans (ih2 (((h1.map Prod.fst).nodup_iff).mp hnd))

theorem dict_insert_not_mem {k : String} {v : JVal} :
    ∀ {d : List (String × JVal)}, k ∉ d.map Prod.fst → dict_insert d k v = d ++ [(k, v)]
  | [], _ => rfl
  | p :: l, h => by
      have hp : ¬ p.1 = k := fun hc => h (by simp [hc])
      have ht : k ∉ l.map Prod.fst := fun hc => h (by simp [hc])
      simp [dict_insert, hp, dict_insert_not_mem ht]

theorem dict_insert_keys_mem {k : String} {v : JVal} :
    ∀ {d : List (String × JVal)}, k ∈ d.map Prod.fst →
      (dict_insert d k v).map Prod.fst = d.map Prod.fst
  | [], h => by simp at h
  | p :: l, h => by
      by_cases hp : p.1 = k
      · simp [dict_insert, hp]
      · have ht : k ∈ l.map Prod.fst := by
          simp at h
          rcases h with h | h
          · exact absurd h.symm hp
          · simpa using h
        simp [dict_insert, hp, dict_insert_keys_mem ht]

theorem dict_insert_map_override {k : String} {v : JVal} {rest : List (String × JVal)}
    (hkrest : k ∉ rest.map Prod.fst) :
    ∀ {d : List (String × JVal)}, (d.map Prod.fst).Nodup → k ∈ d.map Prod.fst →
      (dict_insert d k v).map (fun p => (p.1, lookupD rest p.1 p.2)) =
        d.map (fun p => (p.1, lookupD ((k, v) :: rest) p.1 p.2))
  | [], _, h => by simp at h
  | q :: l, hnd, h => by
      rw [List.map_cons, List.nodup_cons] at hnd
      by_cases hq : q.1 = k
      · have hknl : k ∉ l.map Prod.fst := hq ▸ hnd.1
        simp only [dict_insert, if_pos hq, List.map_cons]
        congr 1
        · rw [hq, lookupD_not_mem hkrest]
          simp [lookupD, hq.symm]
        · apply List.map_congr_left
          intro p hp
          have hpk : ¬ (k = p.1) := fun hc => hknl (hc ▸ List.mem_map_of_mem Prod.fst hp)
          simp [lookupD, hpk]
      · have hkl : k ∈ l.map Prod.fst := by
          simp at h
          rcases h with h | h
          · exact absurd h.symm hq
          · simpa using h
        simp only [dict_insert, if_neg hq, List.map_cons]
        congr 1
        · have hkq : ¬ (k = q.1) := fun hc => hq hc.symm
          simp [lookupD, hkq]
        · exact dict_insert_map_override hkrest hnd.2 hkl

theorem dict_update_eq_cf :
    ∀ (f d : List (String × JVal)), (d.map Prod.fst).Nodup → (f.map Prod.fst).Nodup →
      dict_update d f = dict_cf d f
  | [], d, _, _ => by simp [dict_update, dict_cf, lookupD]
  | (k, v) :: rest, d, hd, hf => by
      have hkrest : k ∉ rest.map Prod.fst := by
        rw [List.map_cons, List.nodup_cons] at hf
        exact hf.1
      have hfrest : (rest.map Prod.fst).Nodup := by
        rw [List.map_cons, List.nodup_cons] at hf
        exact hf.2
      have hstep : dict_update d ((k, v) :: rest) = dict_update (dict_insert d k v) rest := rfl
      by_cases hk : k ∈ d.map Prod.fst
      · have hd' : ((dict_insert d k v).map Prod.fst).Nodup := by
          rw [dict_insert_keys_mem hk]
          exact hd
        rw [hstep, dict_update_eq_cf rest (dict_insert d k v) hd' hfrest]
        unfold dict_cf
        rw [dict_insert_keys_mem hk, dict_insert_map_override hkrest hd hk]
        simp [List.filter_cons, hk]
      · have hins : dict_insert d k v = d ++ [(k, v)] := dict_insert_not_mem hk
        have hd' : ((dict_insert d k v).map Prod.fst).Nodup := by
          rw [hins, List.map_append, List.nodup_append]
          refine ⟨hd, by simp, ?_⟩
          intro a ha
          simp only [List.map_cons, List.map_nil, List.mem_singleton]
          intro hc
          exact hk (hc ▸ ha)
        rw [hstep, dict_update_eq_cf rest (dict_insert d k v) hd' hfrest]
        unfold dict_cf
        rw [hins, List.map_append]
        have hmap : d.map (fun p => (p.1, lookupD rest p.1 p.2)) =
            d.map (fun p => (p.1, lookupD ((k, v) :: rest) p.1 p.2)) := by
          apply List.map_congr_left
          intro p hp
          have hpk : ¬ (k = p.1) := fun hc => hk (hc ▸ List.mem_map_of_mem Prod.fst hp)
          simp [lookupD, hpk]
        have hfilt : rest.filter (fun p => ! decide (p.1 ∈ (d ++ [(k, v)]).map Prod.fst)) =
            rest.filter (fun p => ! decide (p.1 ∈ d.map Prod.fst)) := by
          apply List.filter_congr
          intro p hp
          have hpk : ¬ p.1 = k := fun hc => hkrest (hc ▸ List.mem_map_of_mem Prod.fst hp)
          simp [List.map_append, hpk]
        rw [hmap, hfilt]
        have hhead : lookupD rest k v = v := lookupD_not_mem hkrest
        simp [List.filter_cons, hk, hhead, List.append_assoc]

theorem dict_update_perm {d f1 f2 : List (String × JVal)} (h : f1.Perm f2)
    (hd : (d.map Prod.fst).Nodup) (hf : (f1.map Prod.fst).Nodup) :
    (dict_update d f1).Perm (dict_update d f2) := by
  have hf2 : (f2.map Prod.fst).Nodup := ((h.map Prod.fst).nodup_iff).mp hf
  rw [dict_update_eq_cf f1 d hd hf, dict_update_eq_cf f2 d hd hf2]
  unfold dict_cf
  have hmap : d.map (fun p => (p.1, lookupD f1 p.1 p.2)) =
      d.map (fun p => (p.1, lookupD f2 p.1 p.2)) :=
    List.map_congr_left (fun p _ => by rw [lookupD_perm h hf])
  rw [hmap]
  exact List.Perm.append_left _ (h.filter _)

theorem dict_update_keys_nodup {d f : List (String × JVal)}
    (hd : (d.map Prod.fst).Nodup) (hf : (f.map Prod.fst).Nodup) :
    ((dict_update d f).map Prod.fst).Nodup := by
  rw [dict_update_eq_cf f d hd hf]
  unfold dict_cf
  rw [List.map_append, List.nodup_append]
  have hkeys : (d.map (fun p => (p.1, lookupD f p.1 p.2))).map Prod.fst = d.map Prod.fst := by
    rw [List.map_map]
    exact List.map_congr_left (fun p _ => rfl)
  refine ⟨by rw [hkeys]; exact hd, ?_, ?_⟩
  · have hsub : List.Sublist
        ((f.filter (fun p => ! decide (p.1 ∈ d.map Prod.fst))).map Prod.fst)
        (f.map Prod.fst) := (f.filter_sublist).map Prod.fst
    exact hf.sublist hsub
  · intro a ha hc
    rw [hkeys] at ha
    obtain ⟨p, hp, hpa⟩ := List.mem_map.mp hc
    have hpred := List.of_mem_filter hp
    simp only [Bool.not_eq_true', decide_eq_false_iff_not] at hpred
    rw [hpa] at hpred
    exact hpred ha

theorem lookupD_eq_of_mem {k : String} {v : JVal} :
    ∀ {f : List (String × JVal)}, (f.map Prod.fst).Nodup → (k, v) ∈ f →
      ∀ d, lookupD f k d = v
  | [], _, h => by simp at h
  | p :: l, hnd, h => by
      intro d
      rw [List.map_cons, List.nodup_cons] at hnd
      rcases List.mem_cons.mp h with h1 | h1
      · rw [← h1]
        simp [lookupD]
      · have hp : ¬ p.1 = k := by
          intro hc
          exact hnd.1 (hc ▸ List.mem_map_of_mem Prod.fst h1)
        rw [lookupD, if_neg hp]
        exact lookupD_eq_of_mem hnd.2 h1 d

theorem lookupD_append_of_mem {k : String} {d : JVal} {l2 : List (String × JVal)} :
    ∀ {l1 : List (String × JVal)}, k ∈ l1.map Prod.fst →
      lookupD (l1 ++ l2) k d = lookupD l1 k d
  | [], h => by simp at h
  | p :: l, h => by
      by_cases hp : p.1 = k
      · simp [lookupD, hp]
      · have ht : k ∈ l.map Prod.fst := by
          simp at h
          rcases h with h | h
          · exact absurd h.symm hp
          · simpa using h
        simp only [List.cons_append, lookupD, if_neg hp]
        exact lookupD_append_of_mem ht

theorem lookupD_map_override {k : String} {v : JVal} {f : List (String × JVal)}
    (hfnd : (f.map Prod.fst).Nodup) (hkv : (k, v) ∈ f) :
    ∀ (d : List (String × JVal)), k ∈ d.map Prod.fst → ∀ dv,
      lookupD (d.map (fun p => (p.1, lookupD f p.1 p.2))) k dv = v
  | [], h => by simp at h
  | p :: l, h => by
      intro dv
      by_cases hp : p.1 = k
      · rw [List.map_cons, lookupD, if_pos hp, hp]
        exact lookupD_eq_of_mem hfnd hkv p.2
      · have ht : k ∈ l.map Prod.fst := by
          simp at h
          rcases h with h | h
          · exact absurd h.symm hp
          · simpa using h
        rw [List.map_cons, lookupD, if_neg hp]
        exact lookupD_map_override hfnd hkv l ht dv

/-! ## Claim theorems: canonical encoding (C9, C10) -/

/-- C9: leaf_hash does not depend on the insertion order of the
additional-fields mapping: entries with equal base fields and permuted
(duplicate-free) field lists canonicalize and hash identically. -/
theorem leaf_hash_field_order (H : List Nat → List Nat) (e1 e2 : LogEntry)
    (hts : e1.ts = e2.ts) (hsid : e1.source_id = e2.source_id)
    (hlvl : e1.level = e2.level) (hmsg : e1.msg = e2.msg)
    (hperm : e1.fields.Perm e2.fields) (hnd : (e1.fields.map Prod.fst).Nodup) :
    canonical_leaf e1 = canonical_leaf e2 ∧ leaf_hash H e1 = leaf_hash H e2 := by
  have hbase : base_payload e1 = base_payload e2 := by
    simp [base_payload, hts, hsid, hlvl, hmsg]
  have hbase_nodup : ((base_payload e2).map Prod.fst).Nodup := by
    have h : (base_payload e2).map Prod.fst =
        [("ts" : String), ("source_id" : String), ("level" : String), ("msg" : String)] := rfl
    rw [h]
    decide
  have hcanon : canonical_leaf e1 = canonical_leaf e2 := by
    simp only [canonical_leaf]
    by_cases hemp : e1.fields.isEmpty
    · have h1 : e1.fields = [] := List.isEmpty_iff.mp hemp
      have h2 : e2.fields = [] := by
        rw [h1] at hperm
        exact (hperm.symm).eq_nil
      simp [h1, h2, hbase]
    · have hemp2 : ¬ e2.fields.isEmpty = true := by
        intro hc
        rw [List.isEmpty_iff.mp hc] at hperm
        rw [hperm.eq_nil] at hemp
        exact hemp rfl
      rw [if_neg hemp, if_neg hemp2, hbase]
      have hsorteq : sort_fields (dict_update (base_payload e2) e1.fields) =
          sort_fields (dict_update (base_payload e2) e2.fields) :=
        sort_fields_eq_of_perm (dict_update_perm hperm hbase_nodup hnd)
          (dict_update_keys_nodup hbase_nodup hnd)
      unfold json_dumps_sorted
      rw [hsorteq]
  refine ⟨hcanon, ?_⟩
  unfold leaf_hash
  rw [hcanon]

theorem leaf_hash_field_order_witness :
    canonical_leaf ⟨⟨2024, 1, 1, 0, 0, 0⟩, "s", "l", "m",
        [(("b" : String), JVal.int 1), (("a" : String), JVal.int 2)]⟩ =
      canonical_leaf ⟨⟨2024, 1, 1, 0, 0, 0⟩, "s", "l", "m",
        [(("a" : String), JVal.int 2), (("b" : String), JVal.int 1)]⟩ ∧
    leaf_hash toy_hash ⟨⟨2024, 1, 1, 0, 0, 0⟩, "s", "l", "m",
        [(("b" : String), JVal.int 1), (("a" : String), JVal.int 2)]⟩ =
      leaf_hash toy_hash ⟨⟨2024, 1, 1, 0, 0, 0⟩, "s", "l", "m",
        [(("a" : String), JVal.int 2), (("b" : String), JVal.int 1)]⟩ :=
  leaf_hash_field_order toy_hash _ _ rfl rfl rfl rfl (by decide) (by decide)

/-- C10: an additional field whose key is any base field name ("ts",
"source_id", "level" or "msg") shadows that base field in the canonical
payload: dict.update replaces the base pair's value with the additional
field's value, so the payload's value at that key is the additional
field's value, and consequently entries that differ only in base fields
shadowed this way — e.g. two entries with different msg base fields
sharing an additional field named "msg" — canonicalize and hash
identically. -/
theorem canonical_leaf_base_override (H : List Nat → List Nat) :
    (∀ (e : LogEntry) (k : String) (v : JVal),
      (e.fields.map Prod.fst).Nodup →
      (k = ("ts" : String) ∨ k = ("source_id" : String) ∨
        k = ("level" : String) ∨ k = ("msg" : String)) →
      (k, v) ∈ e.fields →
      canonical_leaf e = json_dumps_sorted (dict_update (base_payload e) e.fields) ∧
      ∀ d : JVal, lookupD (dict_update (base_payload e) e.fields) k d = v) ∧
    (∀ (e1 e2 : LogEntry),
      (e1.fields.map Prod.fst).Nodup → e2.fields = e1.fields →
      (e1.ts = e2.ts ∨ ("ts" : String) ∈ e1.fields.map Prod.fst) →
      (e1.source_id = e2.source_id ∨ ("source_id" : String) ∈ e1.fields.map Prod.fst) →
      (e1.level = e2.level ∨ ("level" : String) ∈ e1.fields.map Prod.fst) →
      (e1.msg = e2.msg ∨ ("msg" : String) ∈ e1.fields.map Prod.fst) →
      canonical_leaf e1 = canonical_leaf e2 ∧ leaf_hash H e1 = leaf_hash H e2) := by
  constructor
  · intro e k v hnd hk hkv
    have hne : ¬ e.fields.isEmpty = true := by
      intro hc
      rw [List.isEmpty_iff.mp hc] at hkv
      simp at hkv
    have hbkeys : (base_payload e).map Prod.fst =
        [("ts" : String), ("source_id" : String), ("level" : String), ("msg" : String)] := rfl
    have hbase_nd : ((base_payload e).map Prod.fst).Nodup := by
      rw [hbkeys]
      decide
    have hkbase : k ∈ (base_payload e).map Prod.fst := by
      rw [hbkeys]
      rcases hk with h | h | h | h <;> simp [h]
    refine ⟨?_, ?_⟩
    · simp only [canonical_leaf]
      rw [if_neg hne]
    · intro d
      rw [dict_update_eq_cf e.fields (base_payload e) hbase_nd hnd]
      unfold dict_cf
      have hkeys : ((base_payload e).map
          (fun p => (p.1, lookupD e.fields p.1 p.2))).map Prod.fst =
          (base_payload e).map Prod.fst := by
        rw [List.map_map]
        exact List.map_congr_left (fun p _ => rfl)
      rw [lookupD_append_of_mem (by rw [hkeys]; exact hkbase)]
      exact lookupD_map_override hnd hkv (base_payload e) hkbase d
  · intro e1 e2 hnd hf hts hsid hlvl hmsg
    have hnd1 : ((base_payload e1).map Prod.fst).Nodup := by
      have h : (base_payload e1).map Prod.fst =
          [("ts" : String), ("source_id" : String), ("level" : String), ("msg" : String)] := rfl
      rw [h]
      decide
    have hnd2 : ((base_payload e2).map Prod.fst).Nodup := by
      have h : (base_payload e2).map Prod.fst =
          [("ts" : String), ("source_id" : String), ("level" : String), ("msg" : String)] := rfl
      rw [h]
      decide
    have h1 : lookupD e1.fields ("ts") (JVal.str (strftime_iso e1.ts)) =
        lookupD e1.fields ("ts") (JVal.str (strftime_iso e2.ts)) := by
      rcases hts with h | h
      · rw [h]
      · exact lookupD_default_irrel _ _ h
    have h2 : lookupD e1.fields ("source_id") (JVal.str e1.source_id) =
        lookupD e1.fields ("source_id") (JVal.str e2.source_id) := by
      rcases hsid with h | h
      · rw [h]
      · exact lookupD_default_irrel _ _ h
    have h3 : lookupD e1.fields ("level") (JVal.str e1.level) =
        lookupD e1.fields ("level") (JVal.str e2.level) := by
      rcases hlvl with h | h
      · rw [h]
      · exact lookupD_default_irrel _ _ h
    have h4 : lookupD e1.fields ("msg") (JVal.str e1.msg) =
        lookupD e1.fields ("msg") (JVal.str e2.msg) := by
      rcases hmsg with h | h
      · rw [h]
      · exact lookupD_default_irrel _ _ h
    have key : dict_update (base_payload e1) e1.fields =
        dict_update (base_payload e2) e1.fields := by
      rw [dict_update_eq_cf e1.fields _ hnd1 hnd, dict_update_eq_cf e1.fields _ hnd2 hnd]
      unfold dict_cf
      congr 1
      simp only [base_payload, List.map_cons, List.map_nil]
      rw [h1, h2, h3, h4]
    have hcanon : canonical_leaf e1 = canonical_leaf e2 := by
      simp only [canonical_leaf]
      rw [hf]
      by_cases hemp : e1.fields.isEmpty
      · have h0 : e1.fields = [] := List.isEmpty_iff.mp hemp
        have hbase : base_payload e1 = base_payload e2 := by
          rw [h0] at hts hsid hlvl hmsg
          simp at hts hsid hlvl hmsg
          simp [base_payload, hts, hsid, hlvl, hmsg]
        rw [hbase]
      · rw [if_neg hemp, if_neg hemp, key]
    refine ⟨hcanon, ?_⟩
    unfold leaf_hash
    rw [hcanon]

theorem canonical_leaf_base_override_witness :
    (⟨⟨2024, 1, 1, 0, 0, 0⟩, "s", "l", "m1", [(("msg" : String), JVal.str "x")]⟩ : LogEntry) ≠
      ⟨⟨2024, 1, 1, 0, 0, 0⟩, "s", "l", "m2", [(("msg" : String), JVal.str "x")]⟩ ∧
    canonical_leaf
        ⟨⟨2024, 1, 1, 0, 0, 0⟩, "s", "l", "m1", [(("msg" : String), JVal.str "x")]⟩ =
      canonical_leaf
        ⟨⟨2024, 1, 1, 0, 0, 0⟩, "s", "l", "m2", [(("msg" : String), JVal.str "x")]⟩ ∧
    leaf_hash toy_hash
        ⟨⟨2024, 1, 1, 0, 0, 0⟩, "s", "l", "m1", [(("msg" : String), JVal.str "x")]⟩ =
      leaf_hash toy_hash
        ⟨⟨2024, 1, 1, 0, 0, 0⟩, "s", "l", "m2", [(("msg" : String), JVal.str "x")]⟩ :=
  ⟨by decide,
   ((canonical_leaf_base_override toy_hash).2
      ⟨⟨2024, 1, 1, 0, 0, 0⟩, "s", "l", "m1", [(("msg" : String), JVal.str "x")]⟩
      ⟨⟨2024, 1, 1, 0, 0, 0⟩, "s", "l", "m2", [(("msg" : String), JVal.str "x")]⟩
      (by decide) rfl (Or.inl rfl) (Or.inl rfl) (Or.inl rfl) (Or.inr (by decide))).1,
   ((canonical_leaf_base_override toy_hash).2
      ⟨⟨2024, 1, 1, 0, 0, 0⟩, "s", "l", "m1", [(("msg" : String), JVal.str "x")]⟩
      ⟨⟨2024, 1, 1, 0, 0, 0⟩, "s", "l", "m2", [(("msg" : String), JVal.str "x")]⟩
      (by decide) rfl (Or.inl rfl) (Or.inl rfl) (Or.inl rfl) (Or.inr (by decide))).2⟩

end SecureLogging
